import Mathlib

/-!
Verification of the response-parsing and completion-recovery pipeline of the
prompt-to-website generator.

The development shallowly embeds the TypeScript sources:

* `src/services/ai-service.ts` — `AIService.parseResponse` (the third, current
  revision, lines 709-756): multi-file extraction via the JavaScript regex
  `/FILE:\s*([^\n\r]+)[\n\r]+```(\w+)?[\n\r]+([\s\S]*?)```/g`, followed by the
  description-cleaning chain and the fallback-description acceptance test;
  `AIService.generateWithGemini` error handling.
* `src/components/ChatInterface.tsx` — `generateResponse` (re-parse of the
  service result, the placeholder-file guarantee, the Unsplash image
  decoration stage) and `handleEditRequest` (the selective file merge).
* `src/services/unsplash-service.ts` — the `WebsiteTemplate` data model.

Texts are modelled as `List Char`; JavaScript regex matching is embedded as a
backtracking matcher specialised to the concrete patterns of the source, with
JavaScript semantics (greedy quantifiers try longest first, lazy quantifiers
shortest first, `exec` with the `g` flag scans start positions left to right
and resumes after each match).
-/

/-- Characters matched by the JavaScript regex class `\s` (ASCII range; the
completions handled by the pipeline are ASCII). -/
def isJsSpace (c : Char) : Bool :=
  c = ' ' || c = '\t' || c = '\n' || c = '\r' || c = '\x0b' || c = '\x0c'

/-- Characters matched by the JavaScript regex class `[\n\r]`. -/
def isNewlineChar (c : Char) : Bool :=
  c = '\n' || c = '\r'

/-- Characters matched by the JavaScript regex class `\w` (`[A-Za-z0-9_]`). -/
def isWordChar (c : Char) : Bool :=
  c.isAlphanum || c = '_'

/-- Characters matched by the JavaScript regex class `[^\n\r]`. -/
def notNewlineChar (c : Char) : Bool :=
  !(isNewlineChar c)

/-- JavaScript `String.prototype.trim` on a character list. -/
def jsTrim (l : List Char) : List Char :=
  ((l.dropWhile isJsSpace).reverse.dropWhile isJsSpace).reverse

/-- JavaScript `String.prototype.toLowerCase` (ASCII range). -/
def toLowerList (l : List Char) : List Char :=
  l.map Char.toLower

/-- Decidable "the literal `lit` occurs as a contiguous substring of `s`". -/
def containsSub (lit s : List Char) : Bool :=
  match s with
  | [] => lit.isPrefixOf ([] : List Char)
  | _ :: t => lit.isPrefixOf s || containsSub lit t

/-- Match a literal at the head of the input, returning the rest. -/
def dropLit : List Char → List Char → Option (List Char)
  | [], s => some s
  | _ :: _, [] => none
  | c :: l, d :: s => if c = d then dropLit l s else none

/-- The list `[n, n-1, …, 1, 0]`: the order in which a greedy `*` quantifier
offers consumption lengths to the rest of the pattern. -/
def descFrom : Nat → List Nat
  | 0 => [0]
  | n + 1 => (n + 1) :: descFrom n

/-- Greedy `p*`: consume between `run.length` and `0` characters of the
maximal `p`-run, longest first, and hand the remaining input to the
continuation; the first continuation success wins. -/
def starGreedy (p : Char → Bool) (s : List Char) (k : List Char → Option α) :
    Option α :=
  let run := s.takeWhile p
  let rest := s.dropWhile p
  (descFrom run.length).findSome? fun j => k (run.drop j ++ rest)

/-- Greedy capturing `p+`: like `starGreedy` but consuming at least one
character; the continuation receives the captured run and the rest. -/
def plusGreedy (p : Char → Bool) (s : List Char)
    (k : List Char → List Char → Option α) : Option α :=
  let run := s.takeWhile p
  let rest := s.dropWhile p
  ((descFrom run.length).filter (0 < ·)).findSome? fun j =>
    k (run.take j) (run.drop j ++ rest)

/-- Optional capturing group `(p+)?`: try the group first (JavaScript `?` is
greedy), fall back to skipping it with an undefined capture. -/
def optPlusGreedy (p : Char → Bool) (s : List Char)
    (k : Option (List Char) → List Char → Option α) : Option α :=
  (plusGreedy p s fun cap rest => k (some cap) rest) <|> k none s

/-- Lazy `([\s\S]*?)` followed by a literal: try capture lengths shortest
first; at each length the literal must match and then the continuation runs. -/
def lazyUpTo (lit : List Char) (s : List Char)
    (k : List Char → List Char → Option α) : Option α :=
  (List.range (s.length + 1)).findSome? fun c =>
    match dropLit lit (s.drop c) with
    | some rest => k (s.take c) rest
    | none => none

/-- One file-block record as produced by `parseResponse`
(`{ path, content, language }` in the source). -/
structure ParsedFile where
  path : List Char
  content : List Char
  language : List Char
deriving DecidableEq, Repr

/-- Raw captures of one successful match of the file-block regex, together
with the input remaining after the match (the position `lastIndex` is moved
to by `exec`). -/
structure FileBlockMatch where
  pathCap : List Char
  langCap : Option (List Char)
  contentCap : List Char
  rest : List Char
deriving Repr

/-- Attempt the regex `FILE:\s*([^\n\r]+)[\n\r]+` + three backticks +
`(\w+)?[\n\r]+([\s\S]*?)` + three backticks at the very start of `s`
(ai-service.ts line 713, identical to ChatInterface.tsx line 118). -/
def matchFileAt (s : List Char) : Option FileBlockMatch :=
  match dropLit "FILE:".data s with
  | none => none
  | some s1 =>
    starGreedy isJsSpace s1 fun s2 =>
    plusGreedy notNewlineChar s2 fun pathCap s3 =>
    plusGreedy isNewlineChar s3 fun _ s4 =>
    match dropLit "```".data s4 with
    | none => none
    | some s5 =>
      optPlusGreedy isWordChar s5 fun langCap s6 =>
      plusGreedy isNewlineChar s6 fun _ s7 =>
      lazyUpTo "```".data s7 fun contentCap rest =>
      some ⟨pathCap, langCap, contentCap, rest⟩

/-- Scan start positions left to right for the first successful match of the
file-block regex (the leftmost-match rule of `RegExp.prototype.exec`). -/
def findFileMatch : List Char → Option FileBlockMatch
  | [] => matchFileAt []
  | s@(_ :: t) =>
    match matchFileAt s with
    | some m => some m
    | none => findFileMatch t

/-! ### Soundness of the combinators: continuations always receive suffixes -/

theorem mem_descFrom {n a : Nat} : a ∈ descFrom n ↔ a ≤ n := by
  induction n with
  | zero => simp [descFrom]
  | succ k ih => simp [descFrom, ih]; omega

theorem takeWhile_drop_append {p : Char → Bool} {s : List Char} {j : Nat}
    (hj : j ≤ (s.takeWhile p).length) :
    (s.takeWhile p).drop j ++ s.dropWhile p = s.drop j := by
  conv_rhs => rw [← List.takeWhile_append_dropWhile (p := p) (l := s)]
  rw [List.drop_append_of_le_length hj]

theorem takeWhile_take {p : Char → Bool} {s : List Char} {j : Nat}
    (hj : j ≤ (s.takeWhile p).length) :
    (s.takeWhile p).take j = s.take j := by
  conv_rhs => rw [← List.takeWhile_append_dropWhile (p := p) (l := s)]
  rw [List.take_append_of_le_length hj]

theorem starGreedy_sound {p : Char → Bool} {s : List Char} {α : Type}
    {k : List Char → Option α} {a : α} (h : starGreedy p s k = some a) :
    ∃ n, n ≤ s.length ∧ k (s.drop n) = some a := by
  unfold starGreedy at h
  obtain ⟨j, hj, hk⟩ := List.exists_of_findSome?_eq_some h
  rw [mem_descFrom] at hj
  refine ⟨j, le_trans hj (List.takeWhile_prefix p).length_le, ?_⟩
  rwa [← takeWhile_drop_append hj]

theorem plusGreedy_sound {p : Char → Bool} {s : List Char} {α : Type}
    {k : List Char → List Char → Option α} {a : α}
    (h : plusGreedy p s k = some a) :
    ∃ n, 1 ≤ n ∧ n ≤ s.length ∧ k (s.take n) (s.drop n) = some a := by
  unfold plusGreedy at h
  obtain ⟨j, hj, hk⟩ := List.exists_of_findSome?_eq_some h
  rw [List.mem_filter] at hj
  obtain ⟨hj, hpos⟩ := hj
  rw [mem_descFrom] at hj
  simp only [decide_eq_true_eq] at hpos
  refine ⟨j, hpos, le_trans hj (List.takeWhile_prefix p).length_le, ?_⟩
  rwa [← takeWhile_drop_append hj, ← takeWhile_take hj]

theorem optPlusGreedy_sound {p : Char → Bool} {s : List Char} {α : Type}
    {k : Option (List Char) → List Char → Option α} {a : α}
    (h : optPlusGreedy p s k = some a) :
    ∃ n cap, n ≤ s.length ∧ k cap (s.drop n) = some a := by
  unfold optPlusGreedy at h
  rcases (Option.orElse_eq_some _ _ _).mp h with h1 | ⟨-, h2⟩
  · obtain ⟨n, -, hn, hk⟩ := plusGreedy_sound h1
    exact ⟨n, some (s.take n), hn, hk⟩
  · exact ⟨0, none, Nat.zero_le _, by simpa using h2⟩

theorem dropLit_sound {lit s r : List Char} (h : dropLit lit s = some r) :
    s = lit ++ r := by
  induction lit generalizing s with
  | nil =>
    simp only [dropLit, Option.some.injEq] at h
    simp [h]
  | cons c l ih =>
    cases s with
    | nil => simp [dropLit] at h
    | cons d t =>
      simp only [dropLit] at h
      split at h
      · next heq => simp [heq, ih h]
      · exact absurd h (by simp)

theorem dropLit_eq_drop {lit s r : List Char} (h : dropLit lit s = some r) :
    r = s.drop lit.length := by
  rw [dropLit_sound h]
  simp

theorem dropLit_isPrefixOf {lit s r : List Char} (h : dropLit lit s = some r) :
    lit.isPrefixOf s := by
  rw [dropLit_sound h]
  simp [List.isPrefixOf_iff_prefix]

theorem lazyUpTo_sound {lit s : List Char} {α : Type}
    {k : List Char → List Char → Option α} {a : α}
    (h : lazyUpTo lit s k = some a) :
    ∃ c, c ≤ s.length ∧ lit.isPrefixOf (s.drop c) ∧
      k (s.take c) (s.drop (c + lit.length)) = some a := by
  unfold lazyUpTo at h
  obtain ⟨c, hc, hk⟩ := List.exists_of_findSome?_eq_some h
  rw [List.mem_range] at hc
  cases hr : dropLit lit ((s.drop c)) with
  | none => rw [hr] at hk; exact absurd hk (by simp)
  | some rest =>
    rw [hr] at hk
    refine ⟨c, by omega, dropLit_isPrefixOf hr, ?_⟩
    have hrest := dropLit_eq_drop hr
    rw [List.drop_drop] at hrest
    rw [← hrest]
    simpa using hk

/-- Composing two drops, oriented so repeated rewriting keeps offsets in a
left-associated sum. -/
theorem dropDropEq (s : List Char) (m n : Nat) :
    (s.drop m).drop n = s.drop (m + n) := by
  rw [List.drop_drop, Nat.add_comm]

/-- Every successful match of the file-block regex locates two disjoint
triple-backtick fences (the opening one at offset at least 5, past the
`FILE:` literal) and leaves exactly the input after the closing fence. -/
theorem matchFileAt_sound {s : List Char} {m : FileBlockMatch}
    (h : matchFileAt s = some m) :
    ∃ i j, 5 ≤ i ∧ i + 3 ≤ j ∧
      "```".data.isPrefixOf (s.drop i) ∧ "```".data.isPrefixOf (s.drop j) ∧
      m.rest = s.drop (j + 3) := by
  unfold matchFileAt at h
  cases h1 : dropLit "FILE:".data s with
  | none => rw [h1] at h; exact absurd h (by simp)
  | some s1 =>
    rw [h1] at h
    have hs1 : s1 = s.drop 5 := dropLit_eq_drop h1
    subst hs1
    obtain ⟨a, -, h⟩ := starGreedy_sound h
    rw [dropDropEq] at h
    obtain ⟨b, hb1, -, h⟩ := plusGreedy_sound h
    rw [dropDropEq] at h
    obtain ⟨c, hc1, -, h⟩ := plusGreedy_sound h
    rw [dropDropEq] at h
    cases h4 : dropLit "```".data (s.drop (5 + a + b + c)) with
    | none => rw [h4] at h; exact absurd h (by simp)
    | some s5 =>
      rw [h4] at h
      have hs5 : s5 = s.drop (5 + a + b + c + 3) := by
        have := dropLit_eq_drop h4
        rwa [dropDropEq] at this
      subst hs5
      obtain ⟨d, capd, hled, h⟩ := optPlusGreedy_sound h
      rw [dropDropEq] at h
      obtain ⟨e, he1, -, h⟩ := plusGreedy_sound h
      rw [dropDropEq] at h
      obtain ⟨f, -, hfence2, h⟩ := lazyUpTo_sound h
      rw [dropDropEq] at hfence2
      rw [dropDropEq] at h
      simp only [Option.some.injEq] at h
      refine ⟨5 + a + b + c, 5 + a + b + c + 3 + d + e + f,
        by omega, by omega, dropLit_isPrefixOf h4, hfence2, ?_⟩
      rw [← h]
      show s.drop _ = _
      congr 1

/-- The remaining input of a successful match is strictly shorter: the
`exec` loop of `parseResponse` terminates. -/
theorem matchFileAt_rest_lt {s : List Char} {m : FileBlockMatch}
    (h : matchFileAt s = some m) : m.rest.length < s.length := by
  obtain ⟨i, j, hi, hij, hf1, -, hrest⟩ := matchFileAt_sound h
  have hlen : 3 ≤ (s.drop i).length := by
    have := hf1
    rw [List.isPrefixOf_iff_prefix] at this
    simpa using this.length_le
  rw [hrest, List.length_drop]
  rw [List.length_drop] at hlen
  omega

theorem findFileMatch_rest_lt {s : List Char} {m : FileBlockMatch}
    (h : findFileMatch s = some m) : m.rest.length < s.length := by
  induction s with
  | nil =>
    simp only [findFileMatch] at h
    exact absurd (matchFileAt_rest_lt h) (by simp)
  | cons c t ih =>
    simp only [findFileMatch] at h
    cases h0 : matchFileAt (c :: t) with
    | some m0 => rw [h0] at h; cases h; exact matchFileAt_rest_lt h0
    | none =>
      rw [h0] at h
      exact Nat.lt_trans (ih h) (by simp)

/-- The record built from one regex match by lines 717-722: path and
content trimmed, language lower-cased with default `'text'` (the
destructuring `[, path, language = 'text', fileContent]`). -/
def recordOfMatch (m : FileBlockMatch) : ParsedFile :=
  { path := jsTrim m.pathCap
    content := jsTrim m.contentCap
    language := toLowerList ((m.langCap).getD "text".data) }

/-- Fuel-indexed version of the `exec` loop; the fuel only forces
termination, `extractGo_congr` shows any fuel of at least the input length
gives the same value (each match consumes at least one character). -/
def extractGo : Nat → List Char → List ParsedFile
  | 0, _ => []
  | fuel + 1, s =>
    match findFileMatch s with
    | none => []
    | some m => recordOfMatch m :: extractGo fuel m.rest

/-- The `while ((match = fileRegex.exec(content)) !== null)` loop of
`parseResponse` (ai-service.ts lines 716-723). -/
def extractFilesList (s : List Char) : List ParsedFile :=
  extractGo s.length s

theorem extractGo_congr {f1 f2 : Nat} {s : List Char}
    (h1 : s.length ≤ f1) (h2 : s.length ≤ f2) :
    extractGo f1 s = extractGo f2 s := by
  induction f1 generalizing f2 s with
  | zero =>
    have hs : s = [] := List.length_eq_zero.mp (Nat.le_zero.mp h1)
    subst hs
    cases f2 with
    | zero => rfl
    | succ g =>
      have : findFileMatch [] = none := by
        simp [findFileMatch, matchFileAt, dropLit]
      simp [extractGo, this]
  | succ f ih =>
    cases f2 with
    | zero =>
      have hs : s = [] := List.length_eq_zero.mp (Nat.le_zero.mp h2)
      subst hs
      have : findFileMatch [] = none := by
        simp [findFileMatch, matchFileAt, dropLit]
      simp [extractGo, this]
    | succ g =>
      show extractGo (f + 1) s = extractGo (g + 1) s
      simp only [extractGo]
      cases hm : findFileMatch s with
      | none => rfl
      | some m =>
        have hlt := findFileMatch_rest_lt hm
        show recordOfMatch m :: extractGo f m.rest =
          recordOfMatch m :: extractGo g m.rest
        rw [ih (show m.rest.length ≤ f by omega) (show m.rest.length ≤ g by omega)]

theorem extractFilesList_eq (s : List Char) :
    extractFilesList s =
      match findFileMatch s with
      | none => []
      | some m => recordOfMatch m :: extractFilesList m.rest := by
  unfold extractFilesList
  cases hl : s.length with
  | zero =>
    have hs : s = [] := List.length_eq_zero.mp hl
    subst hs
    have : findFileMatch [] = none := by
      simp [findFileMatch, matchFileAt, dropLit]
    simp [extractGo, this]
  | succ n =>
    simp only [extractGo]
    cases hm : findFileMatch s with
    | none => rfl
    | some m =>
      have hlt := findFileMatch_rest_lt hm
      show recordOfMatch m :: extractGo n m.rest =
        recordOfMatch m :: extractGo m.rest.length m.rest
      rw [extractGo_congr (show m.rest.length ≤ n by omega) (le_refl _)]

/-! ### The description-cleaning chain of `parseResponse` (lines 726-731) -/

/-- Attempt the non-capturing file-block regex of the first `replace`
(line 727, `FILE:\s*[^\n\r]+[\n\r]+` + fence + `[\w]*[\n\r]+[\s\S]*?` +
fence) at the start of `s`, returning the input after the match. -/
def matchDescFileAt (s : List Char) : Option (List Char) :=
  match dropLit "FILE:".data s with
  | none => none
  | some s1 =>
    starGreedy isJsSpace s1 fun s2 =>
    plusGreedy notNewlineChar s2 fun _ s3 =>
    plusGreedy isNewlineChar s3 fun _ s4 =>
    match dropLit "```".data s4 with
    | none => none
    | some s5 =>
      starGreedy isWordChar s5 fun s6 =>
      plusGreedy isNewlineChar s6 fun _ s7 =>
      lazyUpTo "```".data s7 fun _ rest => some rest

theorem matchDescFileAt_rest {s rest : List Char}
    (h : matchDescFileAt s = some rest) :
    ∃ n, 1 ≤ n ∧ 5 ≤ s.length ∧ rest = s.drop n := by
  unfold matchDescFileAt at h
  cases h1 : dropLit "FILE:".data s with
  | none => rw [h1] at h; exact absurd h (by simp)
  | some s1 =>
    rw [h1] at h
    have hs1 : s1 = s.drop 5 := dropLit_eq_drop h1
    have hlen : 5 ≤ s.length := by
      have := congrArg List.length (dropLit_sound h1)
      simp at this
      omega
    subst hs1
    obtain ⟨a, -, h⟩ := starGreedy_sound h
    rw [dropDropEq] at h
    obtain ⟨b, hb1, -, h⟩ := plusGreedy_sound h
    rw [dropDropEq] at h
    obtain ⟨c, hc1, -, h⟩ := plusGreedy_sound h
    rw [dropDropEq] at h
    cases h4 : dropLit "```".data (s.drop (5 + a + b + c)) with
    | none => rw [h4] at h; exact absurd h (by simp)
    | some s5 =>
      rw [h4] at h
      have hs5 : s5 = s.drop (5 + a + b + c + 3) := by
        have := dropLit_eq_drop h4
        rwa [dropDropEq] at this
      subst hs5
      obtain ⟨d, -, h⟩ := starGreedy_sound h
      rw [dropDropEq] at h
      obtain ⟨e, he1, -, h⟩ := plusGreedy_sound h
      rw [dropDropEq] at h
      obtain ⟨f, -, -, h⟩ := lazyUpTo_sound h
      rw [dropDropEq] at h
      simp only [Option.some.injEq] at h
      exact ⟨5 + a + b + c + 3 + d + e + (f + ("```".data : List Char).length),
        by omega, hlen, h.symm⟩

theorem matchDescFileAt_rest_lt {s rest : List Char}
    (h : matchDescFileAt s = some rest) : rest.length < s.length := by
  obtain ⟨n, hn, hs, hrest⟩ := matchDescFileAt_rest h
  rw [hrest, List.length_drop]
  omega

/-- Fuel-indexed scan for the first `replace` (`removeFileBlocks`); fuel
at least the input length is always enough. -/
def removeFBGo : Nat → List Char → List Char
  | 0, _ => []
  | fuel + 1, s =>
    match s with
    | [] => []
    | c :: t =>
      match matchDescFileAt (c :: t) with
      | some rest => removeFBGo fuel rest
      | none => c :: removeFBGo fuel t

/-- Global `replace(…, '')` for the file-block regex (line 727): scan start
positions left to right, skip each match, copy unmatched characters. -/
def removeFileBlocks (s : List Char) : List Char :=
  removeFBGo s.length s

theorem removeFBGo_congr {f1 f2 : Nat} {s : List Char}
    (h1 : s.length ≤ f1) (h2 : s.length ≤ f2) :
    removeFBGo f1 s = removeFBGo f2 s := by
  induction f1 generalizing f2 s with
  | zero =>
    have hs : s = [] := List.length_eq_zero.mp (Nat.le_zero.mp h1)
    subst hs
    cases f2 <;> rfl
  | succ f ih =>
    cases f2 with
    | zero =>
      have hs : s = [] := List.length_eq_zero.mp (Nat.le_zero.mp h2)
      subst hs
      rfl
    | succ g =>
      cases s with
      | nil => rfl
      | cons c t =>
        show (match matchDescFileAt (c :: t) with
          | some rest => removeFBGo f rest
          | none => c :: removeFBGo f t) =
          (match matchDescFileAt (c :: t) with
          | some rest => removeFBGo g rest
          | none => c :: removeFBGo g t)
        cases hm : matchDescFileAt (c :: t) with
        | some rest =>
          have hlt := matchDescFileAt_rest_lt hm
          simp only [List.length_cons] at h1 h2 hlt
          exact ih (show rest.length ≤ f by omega) (show rest.length ≤ g by omega)
        | none =>
          simp only [List.length_cons] at h1 h2
          rw [ih (show t.length ≤ f by omega) (show t.length ≤ g by omega)]

theorem removeFileBlocks_eq (s : List Char) :
    removeFileBlocks s =
      match s with
      | [] => []
      | c :: t =>
        match matchDescFileAt (c :: t) with
        | some rest => removeFileBlocks rest
        | none => c :: removeFileBlocks t := by
  unfold removeFileBlocks
  cases s with
  | nil => rfl
  | cons c t =>
    simp only [List.length_cons, removeFBGo]
    split
    · next rest hm =>
        have hlt := matchDescFileAt_rest_lt hm
        simp only [List.length_cons] at hlt
        exact removeFBGo_congr (show rest.length ≤ t.length by omega) (le_refl _)
    · rfl

/-- Attempt the bare code-fence regex (three backticks, lazy body, three
backticks; line 728) at the start of `s`. -/
def matchCodeBlockAt (s : List Char) : Option (List Char) :=
  match dropLit "```".data s with
  | none => none
  | some s1 => lazyUpTo "```".data s1 fun _ rest => some rest

theorem matchCodeBlockAt_rest {s rest : List Char}
    (h : matchCodeBlockAt s = some rest) :
    ∃ n, 1 ≤ n ∧ 3 ≤ s.length ∧ rest = s.drop n := by
  unfold matchCodeBlockAt at h
  cases h1 : dropLit "```".data s with
  | none => rw [h1] at h; exact absurd h (by simp)
  | some s1 =>
    rw [h1] at h
    have hs1 : s1 = s.drop 3 := dropLit_eq_drop h1
    have hlen : 3 ≤ s.length := by
      have := congrArg List.length (dropLit_sound h1)
      simp at this
      omega
    subst hs1
    obtain ⟨c, -, -, h⟩ := lazyUpTo_sound h
    rw [dropDropEq] at h
    simp only [Option.some.injEq] at h
    exact ⟨3 + (c + ("```".data : List Char).length), by omega, hlen, h.symm⟩

theorem matchCodeBlockAt_rest_lt {s rest : List Char}
    (h : matchCodeBlockAt s = some rest) : rest.length < s.length := by
  obtain ⟨n, hn, hs, hrest⟩ := matchCodeBlockAt_rest h
  rw [hrest, List.length_drop]
  omega

/-- Fuel-indexed scan for the second `replace` (`removeCodeBlocks`). -/
def removeCBGo : Nat → List Char → List Char
  | 0, _ => []
  | fuel + 1, s =>
    match s with
    | [] => []
    | c :: t =>
      match matchCodeBlockAt (c :: t) with
      | some rest => removeCBGo fuel rest
      | none => c :: removeCBGo fuel t

/-- Global `replace(/```[\s\S]*?```/g, '')` (line 728). -/
def removeCodeBlocks (s : List Char) : List Char :=
  removeCBGo s.length s

theorem removeCBGo_congr {f1 f2 : Nat} {s : List Char}
    (h1 : s.length ≤ f1) (h2 : s.length ≤ f2) :
    removeCBGo f1 s = removeCBGo f2 s := by
  induction f1 generalizing f2 s with
  | zero =>
    have hs : s = [] := List.length_eq_zero.mp (Nat.le_zero.mp h1)
    subst hs
    cases f2 <;> rfl
  | succ f ih =>
    cases f2 with
    | zero =>
      have hs : s = [] := List.length_eq_zero.mp (Nat.le_zero.mp h2)
      subst hs
      rfl
    | succ g =>
      cases s with
      | nil => rfl
      | cons c t =>
        show (match matchCodeBlockAt (c :: t) with
          | some rest => removeCBGo f rest
          | none => c :: removeCBGo f t) =
          (match matchCodeBlockAt (c :: t) with
          | some rest => removeCBGo g rest
          | none => c :: removeCBGo g t)
        cases hm : matchCodeBlockAt (c :: t) with
        | some rest =>
          have hlt := matchCodeBlockAt_rest_lt hm
          simp only [List.length_cons] at h1 h2 hlt
          exact ih (show rest.length ≤ f by omega) (show rest.length ≤ g by omega)
        | none =>
          simp only [List.length_cons] at h1 h2
          rw [ih (show t.length ≤ f by omega) (show t.length ≤ g by omega)]

theorem removeCodeBlocks_eq (s : List Char) :
    removeCodeBlocks s =
      match s with
      | [] => []
      | c :: t =>
        match matchCodeBlockAt (c :: t) with
        | some rest => removeCodeBlocks rest
        | none => c :: removeCodeBlocks t := by
  unfold removeCodeBlocks
  cases s with
  | nil => rfl
  | cons c t =>
    simp only [List.length_cons, removeCBGo]
    split
    · next rest hm =>
        have hlt := matchCodeBlockAt_rest_lt hm
        simp only [List.length_cons] at hlt
        exact removeCBGo_congr (show rest.length ≤ t.length by omega) (le_refl _)
    · rfl

/-- Attempt `\s*[\n\r]+` at the start of `s` (the body of the multiline
regex `/^\s*[\n\r]+/gm` of line 729). -/
def matchBlankAt (s : List Char) : Option (List Char) :=
  starGreedy isJsSpace s fun s1 =>
  plusGreedy isNewlineChar s1 fun _ rest => some rest

theorem matchBlankAt_rest {s rest : List Char}
    (h : matchBlankAt s = some rest) : ∃ n, 1 ≤ n ∧ rest = s.drop n := by
  unfold matchBlankAt at h
  obtain ⟨a, -, h⟩ := starGreedy_sound h
  obtain ⟨b, hb1, -, h⟩ := plusGreedy_sound h
  rw [dropDropEq] at h
  simp only [Option.some.injEq] at h
  exact ⟨a + b, by omega, h.symm⟩

theorem matchBlankAt_rest_lt {c : Char} {t rest : List Char}
    (h : matchBlankAt (c :: t) = some rest) :
    rest.length < (c :: t).length := by
  obtain ⟨n, hn, hrest⟩ := matchBlankAt_rest h
  rw [hrest, List.length_drop]
  simp only [List.length_cons]
  omega

/-- Fuel-indexed scan for the third `replace`. -/
def gmGo : Nat → List Char → Bool → List Char
  | 0, _, _ => []
  | fuel + 1, s, atLineStart =>
    match s, atLineStart with
    | [], _ => []
    | c :: t, false => c :: gmGo fuel t (isNewlineChar c)
    | c :: t, true =>
      match matchBlankAt (c :: t) with
      | some rest => gmGo fuel rest true
      | none => c :: gmGo fuel t (isNewlineChar c)

/-- Global multiline `replace(/^\s*[\n\r]+/gm, '')` (line 729).  The flag
records whether the current position is a line start (position 0, or just
after a `\n`/`\r`, where the multiline `^` matches); a removed run always
ends with a newline character, so scanning resumes at a line start. -/
def gmStep (s : List Char) (atLineStart : Bool) : List Char :=
  gmGo s.length s atLineStart

theorem gmGo_congr {f1 f2 : Nat} {s : List Char} {b : Bool}
    (h1 : s.length ≤ f1) (h2 : s.length ≤ f2) :
    gmGo f1 s b = gmGo f2 s b := by
  induction f1 generalizing f2 s b with
  | zero =>
    have hs : s = [] := List.length_eq_zero.mp (Nat.le_zero.mp h1)
    subst hs
    cases f2 <;> rfl
  | succ f ih =>
    cases f2 with
    | zero =>
      have hs : s = [] := List.length_eq_zero.mp (Nat.le_zero.mp h2)
      subst hs
      rfl
    | succ g =>
      cases s with
      | nil => rfl
      | cons c t =>
        cases b with
        | false =>
          show c :: gmGo f t (isNewlineChar c) = c :: gmGo g t (isNewlineChar c)
          simp only [List.length_cons] at h1 h2
          rw [ih (show t.length ≤ f by omega) (show t.length ≤ g by omega)]
        | true =>
          show (match matchBlankAt (c :: t) with
            | some rest => gmGo f rest true
            | none => c :: gmGo f t (isNewlineChar c)) =
            (match matchBlankAt (c :: t) with
            | some rest => gmGo g rest true
            | none => c :: gmGo g t (isNewlineChar c))
          cases hm : matchBlankAt (c :: t) with
          | some rest =>
            have hlt := matchBlankAt_rest_lt hm
            simp only [List.length_cons] at h1 h2 hlt
            exact ih (show rest.length ≤ f by omega) (show rest.length ≤ g by omega)
          | none =>
            simp only [List.length_cons] at h1 h2
            rw [ih (show t.length ≤ f by omega) (show t.length ≤ g by omega)]

theorem gmStep_eq (s : List Char) (b : Bool) :
    gmStep s b =
      match s, b with
      | [], _ => []
      | c :: t, false => c :: gmStep t (isNewlineChar c)
      | c :: t, true =>
        match matchBlankAt (c :: t) with
        | some rest => gmStep rest true
        | none => c :: gmStep t (isNewlineChar c) := by
  unfold gmStep
  cases s with
  | nil => cases b <;> rfl
  | cons c t =>
    cases b with
    | false => simp only [List.length_cons, gmGo]
    | true =>
      simp only [List.length_cons, gmGo]
      split
      · next rest hm =>
          have hlt := matchBlankAt_rest_lt hm
          simp only [List.length_cons] at hlt
          exact gmGo_congr (show rest.length ≤ t.length by omega) (le_refl _)
      · rfl

/-- Attempt the greedy `[\n\r]{3,}` at the start of `s`: succeeds when a
maximal newline run of length at least three starts here, consuming it. -/
def matchBigNLAt (s : List Char) : Option (List Char) :=
  if 3 ≤ (s.takeWhile isNewlineChar).length then some (s.dropWhile isNewlineChar)
  else none

theorem matchBigNLAt_rest_lt {c : Char} {t rest : List Char}
    (h : matchBigNLAt (c :: t) = some rest) :
    rest.length < (c :: t).length := by
  unfold matchBigNLAt at h
  split at h
  · next h3 =>
    have hsum := congrArg List.length
      (List.takeWhile_append_dropWhile (p := isNewlineChar) (l := c :: t))
    simp only [List.length_append] at hsum
    simp only [Option.some.injEq] at h
    rw [← h]
    omega
  · exact absurd h (by simp)

/-- Fuel-indexed scan for the fourth `replace`. -/
def collapseGo : Nat → List Char → List Char
  | 0, _ => []
  | fuel + 1, s =>
    match s with
    | [] => []
    | c :: t =>
      match matchBigNLAt (c :: t) with
      | some rest => '\n' :: '\n' :: collapseGo fuel rest
      | none => c :: collapseGo fuel t

/-- Global `replace(/[\n\r]{3,}/g, '\n\n')` (line 730): each maximal
newline run of length at least three is replaced by exactly two `\n`. -/
def collapseNL (s : List Char) : List Char :=
  collapseGo s.length s

theorem collapseGo_congr {f1 f2 : Nat} {s : List Char}
    (h1 : s.length ≤ f1) (h2 : s.length ≤ f2) :
    collapseGo f1 s = collapseGo f2 s := by
  induction f1 generalizing f2 s with
  | zero =>
    have hs : s = [] := List.length_eq_zero.mp (Nat.le_zero.mp h1)
    subst hs
    cases f2 <;> rfl
  | succ f ih =>
    cases f2 with
    | zero =>
      have hs : s = [] := List.length_eq_zero.mp (Nat.le_zero.mp h2)
      subst hs
      rfl
    | succ g =>
      cases s with
      | nil => rfl
      | cons c t =>
        show (match matchBigNLAt (c :: t) with
          | some rest => '\n' :: '\n' :: collapseGo f rest
          | none => c :: collapseGo f t) =
          (match matchBigNLAt (c :: t) with
          | some rest => '\n' :: '\n' :: collapseGo g rest
          | none => c :: collapseGo g t)
        cases hm : matchBigNLAt (c :: t) with
        | some rest =>
          have hlt := matchBigNLAt_rest_lt hm
          simp only [List.length_cons] at h1 h2 hlt
          show '\n' :: '\n' :: collapseGo f rest = '\n' :: '\n' :: collapseGo g rest
          rw [ih (show rest.length ≤ f by omega) (show rest.length ≤ g by omega)]
        | none =>
          simp only [List.length_cons] at h1 h2
          rw [ih (show t.length ≤ f by omega) (show t.length ≤ g by omega)]

theorem collapseNL_eq (s : List Char) :
    collapseNL s =
      match s with
      | [] => []
      | c :: t =>
        match matchBigNLAt (c :: t) with
        | some rest => '\n' :: '\n' :: collapseNL rest
        | none => c :: collapseNL t := by
  unfold collapseNL
  cases s with
  | nil => rfl
  | cons c t =>
    simp only [List.length_cons, collapseGo]
    split
    · next rest hm =>
        have hlt := matchBigNLAt_rest_lt hm
        simp only [List.length_cons] at hlt
        rw [collapseGo_congr (show rest.length ≤ t.length by omega) (le_refl _)]
    · rfl

/-! ### Data model and `parseResponse` (ai-service.ts lines 709-756) -/

/-- The `TemplatePageConfig` interface of unsplash-service.ts (lines
133-139). -/
structure TemplatePageConfig where
  name : List Char
  filename : List Char
  title : List Char
  sections : List (List Char)
  isRequired : Bool
deriving DecidableEq, Repr

/-- The `WebsiteTemplate` interface of unsplash-service.ts (lines 123-131);
the category union type is modelled as its underlying string. -/
structure WebsiteTemplate where
  id : List Char
  name : List Char
  description : List Char
  category : List Char
  pages : List TemplatePageConfig
  sharedStyles : List Char
  features : List (List Char)
deriving DecidableEq, Repr

/-- Decimal rendering of `${files.length}`. -/
def natChars (n : Nat) : List Char :=
  (Nat.repr n).data

/-- The fallback description template literal of `parseResponse`
(lines 735-749), built from the template, the page mode and the number of
extracted files. -/
def mkFallback (template : WebsiteTemplate) (isSinglePage : Bool)
    (fileCount : Nat) : List Char :=
  "I\x27ve generated a complete ".data ++
  (if isSinglePage then "single-page".data else "multi-page".data) ++
  " ".data ++ toLowerList template.name ++
  " based on your request!\n\n**Template Used:** ".data ++ template.name ++
  "\n**Category:** ".data ++ template.category ++
  "\n**Generated Files:** ".data ++ natChars fileCount ++
  " files\n\n**Features Included:**\n".data ++
  List.intercalate "\n".data
    (template.features.map (fun feature => "- ".data ++ feature)) ++
  "\n\n**Pages Generated:**\n".data ++
  (if isSinglePage then "- Single responsive page with all sections".data
   else List.intercalate "\n".data
     (template.pages.map (fun page =>
       "- **".data ++ page.name ++ "** (".data ++ page.filename ++
       "): ".data ++ List.intercalate ", ".data page.sections))) ++
  "\n\nThe application uses WebMeccano\x27s signature colors (#34bfc2 blue and #F78D2B orange) with professional typography (Source Sans Pro for headings, IBM Plex Sans for body text). All files are properly structured with responsive design and modern styling.\n\nYou can now view the live preview or edit the code. Ask me to make any changes you\x27d like!".data

/-- Case-insensitive "starts with" (the pattern is given lower-case). -/
def startsWithCI (lit s : List Char) : Bool :=
  lit.isPrefixOf (toLowerList s)

/-- The acceptance-test regex `/^(Generated Files?:?|Here|The)/i` of line
734 has a match exactly when the text starts, case-insensitively, with one
of the three alternatives; the optional `s?` and `:?` make the first
alternative equivalent to the bare prefix `Generated File`. -/
def lowInfoOpener (d : List Char) : Bool :=
  startsWithCI "generated file".data d || startsWithCI "here".data d ||
    startsWithCI "the".data d

/-- The cleaned non-file remainder of the completion: the four chained
`replace` calls and the final `trim` of lines 726-731. -/
def cleanDescription (content : List Char) : List Char :=
  jsTrim (collapseNL (gmStep (removeCodeBlocks (removeFileBlocks content)) true))

/-- The description of lines 726-750: the cleaned remainder if it passes
the acceptance test (length at least 50 and no low-information opener),
otherwise the synthesized fallback. -/
def descriptionOf (content : List Char) (template : WebsiteTemplate)
    (isSinglePage : Bool) (fileCount : Nat) : List Char :=
  let d := cleanDescription content
  if d.length < 50 || lowInfoOpener d then mkFallback template isSinglePage fileCount
  else d

/-- The `AIResponse` interface of ai-service.ts (lines 440-447). -/
structure AIResp where
  content : List Char
  files : List ParsedFile
deriving DecidableEq, Repr

/-- `AIService.parseResponse` (lines 709-756): extract the file blocks, then
derive the description from the remainder. -/
def parseResponse (content : List Char) (template : WebsiteTemplate)
    (isSinglePage : Bool) : AIResp :=
  let files := extractFilesList content
  { content := descriptionOf content template isSinglePage files.length
    files := files }

/-- The fixed placeholder file substituted by `generateResponse` when no
files could be extracted (ChatInterface.tsx lines 149-303): path
`index.html`, language `html`, and the constant document below.  The
document is a fixed WebMeccano landing card; it contains no interpolation
(in particular it does not mention the user prompt). -/
def placeholderContent : List Char := List.join [
  "<!DOCTYPE html>\n".data,
  "<html lang=\"en\">\n".data,
  "<head>\n".data,
  "    <meta charset=\"UTF-8\">\n".data,
  "    <meta name=\"viewport\" content=\"width=device-width, initial-scale=1.0\">\n".data,
  "    <title>WebMeccano Generated App</title>\n".data,
  "    <link href=\"https://fonts.googleapis.com/css2?family=Inter:wght@300;400;500;600;700&display=swap\" rel=\"stylesheet\">\n".data,
  "    <link href=\"https://cdnjs.cloudflare.com/ajax/libs/font-awesome/6.0.0/css/all.min.css\" rel=\"stylesheet\">\n".data,
  "    <style>\n".data,
  "        * \x7b\n".data,
  "            margin: 0;\n".data,
  "            padding: 0;\n".data,
  "            box-sizing: border-box;\n".data,
  "        \x7d\n".data,
  "        \n".data,
  "        body \x7b \n".data,
  "            font-family: \x27Inter\x27, -apple-system, BlinkMacSystemFont, sans-serif; \n".data,
  "            background: linear-gradient(135deg, #667eea 0%, #764ba2 100%);\n".data,
  "            min-height: 100vh;\n".data,
  "            display: flex;\n".data,
  "            align-items: center;\n".data,
  "            justify-content: center;\n".data,
  "        \x7d\n".data,
  "        \n".data,
  "        .container \x7b \n".data,
  "            max-width: 600px; \n".data,
  "            margin: 0 auto; \n".data,
  "            background: rgba(255, 255, 255, 0.95);\n".data,
  "            backdrop-filter: blur(10px);\n".data,
  "            padding: 40px; \n".data,
  "            border-radius: 20px; \n".data,
  "            box-shadow: 0 20px 40px rgba(0,0,0,0.1);\n".data,
  "            text-align: center;\n".data,
  "            border: 1px solid rgba(255, 255, 255, 0.2);\n".data,
  "        \x7d\n".data,
  "        \n".data,
  "        h1 \x7b \n".data,
  "            color: #34bfc2; \n".data,
  "            font-size: 3rem;\n".data,
  "            font-weight: 700;\n".data,
  "            margin-bottom: 1rem;\n".data,
  "            background: linear-gradient(135deg, #34bfc2, #F78D2B);\n".data,
  "            -webkit-background-clip: text;\n".data,
  "            -webkit-text-fill-color: transparent;\n".data,
  "            background-clip: text;\n".data,
  "        \x7d\n".data,
  "        \n".data,
  "        p \x7b\n".data,
  "            font-size: 1.2rem;\n".data,
  "            color: #666;\n".data,
  "            margin-bottom: 2rem;\n".data,
  "            line-height: 1.6;\n".data,
  "        \x7d\n".data,
  "        \n".data,
  "        .btn \x7b\n".data,
  "            background: linear-gradient(135deg, #34bfc2 0%, #F78D2B 100%);\n".data,
  "            color: white;\n".data,
  "            border: none;\n".data,
  "            padding: 15px 30px;\n".data,
  "            border-radius: 50px;\n".data,
  "            font-family: \x27Inter\x27, sans-serif;\n".data,
  "            font-weight: 600;\n".data,
  "            font-size: 1.1rem;\n".data,
  "            cursor: pointer;\n".data,
  "            transition: all 0.3s ease;\n".data,
  "            box-shadow: 0 10px 20px rgba(52, 191, 194, 0.3);\n".data,
  "        \x7d\n".data,
  "        \n".data,
  "        .btn:hover \x7b\n".data,
  "            transform: translateY(-3px);\n".data,
  "            box-shadow: 0 15px 30px rgba(52, 191, 194, 0.4);\n".data,
  "        \x7d\n".data,
  "        \n".data,
  "        .features \x7b\n".data,
  "            display: grid;\n".data,
  "            grid-template-columns: repeat(auto-fit, minmax(150px, 1fr));\n".data,
  "            gap: 1rem;\n".data,
  "            margin-top: 2rem;\n".data,
  "        \x7d\n".data,
  "        \n".data,
  "        .feature \x7b\n".data,
  "            padding: 1rem;\n".data,
  "            background: rgba(255, 255, 255, 0.5);\n".data,
  "            border-radius: 10px;\n".data,
  "            border: 1px solid rgba(255, 255, 255, 0.3);\n".data,
  "        \x7d\n".data,
  "        \n".data,
  "        .feature i \x7b\n".data,
  "            font-size: 2rem;\n".data,
  "            color: #34bfc2;\n".data,
  "            margin-bottom: 0.5rem;\n".data,
  "        \x7d\n".data,
  "        \n".data,
  "        @media (max-width: 768px) \x7b\n".data,
  "            .container \x7b\n".data,
  "                margin: 20px;\n".data,
  "                padding: 30px 20px;\n".data,
  "            \x7d\n".data,
  "            \n".data,
  "            h1 \x7b\n".data,
  "                font-size: 2rem;\n".data,
  "            \x7d\n".data,
  "        \x7d\n".data,
  "    </style>\n".data,
  "</head>\n".data,
  "<body>\n".data,
  "    <div class=\"container\">\n".data,
  "        <h1><i class=\"fas fa-magic\"></i> WebMeccano</h1>\n".data,
  "        <p>Your beautiful app has been generated! This is a modern, responsive application built with the latest web technologies.</p>\n".data,
  "        <button class=\"btn\" onclick=\"showDemo()\">\n".data,
  "            <i class=\"fas fa-rocket\"></i> Explore Features\n".data,
  "        </button>\n".data,
  "        \n".data,
  "        <div class=\"features\">\n".data,
  "            <div class=\"feature\">\n".data,
  "                <i class=\"fas fa-mobile-alt\"></i>\n".data,
  "                <div>Responsive</div>\n".data,
  "            </div>\n".data,
  "            <div class=\"feature\">\n".data,
  "                <i class=\"fas fa-paint-brush\"></i>\n".data,
  "                <div>Beautiful UI</div>\n".data,
  "            </div>\n".data,
  "            <div class=\"feature\">\n".data,
  "                <i class=\"fas fa-bolt\"></i>\n".data,
  "                <div>Fast & Modern</div>\n".data,
  "            </div>\n".data,
  "        </div>\n".data,
  "    </div>\n".data,
  "    \n".data,
  "    <script>\n".data,
  "        function showDemo() \x7b\n".data,
  "            alert(\x27ðŸŽ‰ Welcome to your WebMeccano generated app!\\n\\nâœ¨ Features:\\nâ€¢ Modern design\\nâ€¢ Responsive layout\\nâ€¢ Beautiful animations\\nâ€¢ WebMeccano branding\x27);\n".data,
  "        \x7d\n".data,
  "        \n".data,
  "        // Add some interactive animations\n".data,
  "        document.addEventListener(\x27DOMContentLoaded\x27, function() \x7b\n".data,
  "            const container = document.querySelector(\x27.container\x27);\n".data,
  "            container.style.opacity = \x270\x27;\n".data,
  "            container.style.transform = \x27translateY(30px)\x27;\n".data,
  "            \n".data,
  "            setTimeout(() => \x7b\n".data,
  "                container.style.transition = \x27all 0.8s ease\x27;\n".data,
  "                container.style.opacity = \x271\x27;\n".data,
  "                container.style.transform = \x27translateY(0)\x27;\n".data,
  "            \x7d, 100);\n".data,
  "        \x7d);\n".data,
  "    </script>\n".data,
  "</body>\n".data,
  "</html>".data
]

/-- The placeholder `GeneratedFile` record of ChatInterface.tsx lines
150-302. -/
def placeholderFile : ParsedFile :=
  { path := "index.html".data
    content := placeholderContent
    language := "html".data }

/-- The file-list computation of `generateResponse`
(ChatInterface.tsx lines 111-303): take the service result, re-run the
file regex over the returned description (`result.content`), prefer those
matches when any exist, otherwise keep `result.files`, and finally
substitute the placeholder file when the list is still empty. -/
def generateFilesPipeline (content : List Char) (template : WebsiteTemplate)
    (isSinglePage : Bool) : List ParsedFile :=
  let r := parseResponse content template isSinglePage
  let parsedFiles := extractFilesList r.content
  let files := if 0 < parsedFiles.length then parsedFiles else r.files
  if files.length = 0 then [placeholderFile] else files

/-- The selective merge of `handleEditRequest`
(ChatInterface.tsx lines 527-533): every current file is replaced by the
first returned record with the same path, when one exists (`editedFiles.find
(ef => ef.path === existingFile.path) || existingFile`). -/
def mergeEditedFiles (prevFiles editedFiles : List ParsedFile) :
    List ParsedFile :=
  prevFiles.map fun existingFile =>
    (editedFiles.find? fun ef => ef.path == existingFile.path).getD existingFile

/-- Outcome of an awaited external call: the promise resolved with a value,
or it rejected (network error, non-ok status, malformed payload — whatever
lands in the `catch` block). -/
inductive FetchResult (α : Type) where
  | ok (value : α)
  | failure
deriving DecidableEq

/-- The Unsplash image-decoration stage of `generateResponse`
(ChatInterface.tsx lines 305-361).  `images` is the awaited result of
`searchImages` (a list of photo URLs); `rewriteHtml` abstracts the
content rewriting performed inside the map for a qualifying file (the
placeholder-URL replacement and background/`src` rewriting of lines
317-352, which depend only on the file and the fetched photos).  An HTML
file qualifies when its path ends in `.html` and its content contains
`<body`; all other files are returned unchanged, and on a fetch failure
the whole original list is returned (the `catch` merely warns). -/
def decorateFiles (images : FetchResult (List (List Char)))
    (rewriteHtml : ParsedFile → List Char) (files : List ParsedFile) :
    List ParsedFile :=
  match images with
  | .failure => files
  | .ok imgs =>
    if 0 < imgs.length then
      files.map fun file =>
        if ".html".data.isSuffixOf file.path &&
            containsSub "<body".data file.content then
          { file with content := rewriteHtml file }
        else file
    else files

/-- The typed error thrown by `generateWithGemini`
(`new Error('Failed to generate with Gemini API')`, line 528). -/
inductive GenError where
  | generationFailed
deriving DecidableEq

/-- Outcome of the single Gemini fetch of `generateWithGemini`
(ai-service.ts lines 499-524): a successful response with the extracted
completion text, a non-success HTTP status (`!response.ok`, which line 519
turns into a throw), or a rejected fetch. -/
inductive GeminiOutcome where
  | success (content : List Char)
  | httpFailure
  | networkFailure
deriving DecidableEq

/-- `AIService.generateWithGemini` (ai-service.ts lines 475-530) as a
function of the one fetch outcome it consumes: the `try` block parses a
successful response, and every failure reaches the `catch` block, which
rethrows the single typed error.  The function performs exactly one fetch
(its argument); no retry exists in the source. -/
def generateWithGemini (outcome : GeminiOutcome) (template : WebsiteTemplate)
    (isSinglePage : Bool) : Except GenError AIResp :=
  match outcome with
  | .success content => .ok (parseResponse content template isSinglePage)
  | .httpFailure => .error .generationFailed
  | .networkFailure => .error .generationFailed

/-! ### The truncation detector (spec §4.1; not present under src/) -/

/-- Fuel-indexed count of (non-overlapping) triple-backtick fence marks. -/
def countFenceGo : Nat → List Char → Nat
  | 0, _ => 0
  | fuel + 1, s =>
    match s with
    | [] => 0
    | c :: t =>
      if "```".data.isPrefixOf (c :: t) then 1 + countFenceGo fuel (t.drop 2)
      else countFenceGo fuel t

/-- Number of (non-overlapping) triple-backtick fence marks in a line. -/
def countFenceMarks (s : List Char) : Nat :=
  countFenceGo s.length s

/-- Modelled from the spec: the last non-empty line of the trimmed text
(spec §4.1 step 1); the repository's `isTruncated` source file is not
under src/. -/
def lastNonEmptyLine (t : List Char) : List Char :=
  (((t.splitOn '\n').filter fun l => !(jsTrim l).isEmpty).getLast?).getD []

/-- Modelled from the spec: an unclosed angle-bracket tag — a `<` with no
matching `>` before end of line (spec §4.1 step 2). -/
def unclosedTagSignal (l : List Char) : Bool :=
  l.contains '<' && !((l.reverse.takeWhile fun c => c ≠ '<').contains '>')

/-- Modelled from the spec: an opened-but-unclosed triple-backtick fence on
the line (spec §4.1 step 2): an odd number of fence marks. -/
def unclosedFenceSignal (l : List Char) : Bool :=
  countFenceMarks l % 2 = 1

/-- Modelled from the spec: an unclosed quoted attribute value —
`class="…` or `style="…` with no closing quote (spec §4.1 step 2). -/
def unclosedAttrSignal (l : List Char) : Bool :=
  (containsSub "class=\"".data l || containsSub "style=\"".data l) &&
    l.count '"' % 2 = 1

/-- Modelled from the spec: a function/control-block opener with no closing
brace, or a bare trailing opening brace — a `{` with no `}` after it
(spec §4.1 step 2). -/
def unclosedBraceSignal (l : List Char) : Bool :=
  l.contains '{' && !((l.reverse.takeWhile fun c => c ≠ '{').contains '}')

/-- Number of HTML start-tag occurrences (`<` followed by a letter). -/
def tagOpenCount (t : List Char) : Nat :=
  match t with
  | '<' :: c :: rest => (if c.isAlpha then 1 else 0) + tagOpenCount (c :: rest)
  | _ :: rest => tagOpenCount rest
  | [] => 0

/-- Number of HTML end-tag occurrences (`</`). -/
def tagCloseCount (t : List Char) : Nat :=
  match t with
  | '<' :: '/' :: rest => 1 + tagCloseCount rest
  | _ :: rest => tagCloseCount rest
  | [] => 0

/-- Modelled from the spec: the whole-text tag-imbalance check with the
fixed tolerance threshold 3 (spec §4.1 step 3). -/
def tagImbalance (t : List Char) : Bool :=
  tagCloseCount t + 3 < tagOpenCount t

/-- Modelled from the spec: `isTruncated` (spec §4.1) — the repository's
truncation-detector source file is not under src/ (only the spec describes
it); empty input is never truncated, otherwise the last non-empty line is
probed for the local signals of step 2 and the whole text for the tag
imbalance of step 3. -/
def isTruncated (text : List Char) : Bool :=
  let t := jsTrim text
  if t.isEmpty then false
  else
    (let line := lastNonEmptyLine t
     unclosedTagSignal line || unclosedFenceSignal line ||
       unclosedAttrSignal line || unclosedBraceSignal line) ||
      tagImbalance text

/-! ### Shared helper lemmas -/

theorem containsSub_iff {lit s : List Char} :
    containsSub lit s = true ↔ ∃ i, lit.isPrefixOf (s.drop i) := by
  induction s with
  | nil =>
    simp only [containsSub, List.drop_nil]
    exact ⟨fun h => ⟨0, h⟩, fun ⟨_, h⟩ => h⟩
  | cons c t ih =>
    simp only [containsSub, Bool.or_eq_true, ih]
    constructor
    · rintro (h | ⟨i, h⟩)
      · exact ⟨0, h⟩
      · exact ⟨i + 1, h⟩
    · rintro ⟨i, h⟩
      cases i with
      | zero => exact Or.inl h
      | succ j => exact Or.inr ⟨j, h⟩

theorem not_prefix_of_not_containsSub {lit s : List Char}
    (h : containsSub lit s = false) (i : Nat) :
    ¬ lit.isPrefixOf (s.drop i) := fun hp =>
  absurd (containsSub_iff.mpr ⟨i, hp⟩) (by simp [h])

theorem dropLit_eq_none {lit s : List Char}
    (h : ¬ lit.isPrefixOf s) : dropLit lit s = none := by
  cases hd : dropLit lit s with
  | none => rfl
  | some r => exact absurd (dropLit_isPrefixOf hd) (by simpa using h)

/-- A successful file-block match starts with the `FILE:` literal. -/
theorem matchFileAt_marker {s : List Char} {m : FileBlockMatch}
    (h : matchFileAt s = some m) : "FILE:".data.isPrefixOf s := by
  unfold matchFileAt at h
  cases h1 : dropLit "FILE:".data s with
  | none => rw [h1] at h; exact absurd h (by simp)
  | some s1 => exact dropLit_isPrefixOf h1

theorem findFileMatch_none_of_no_marker {s : List Char}
    (h : containsSub "FILE:".data s = false) : findFileMatch s = none := by
  induction s with
  | nil => rfl
  | cons c t ih =>
    simp only [containsSub, Bool.or_eq_false_iff] at h
    obtain ⟨h0, ht⟩ := h
    simp only [findFileMatch]
    cases hm : matchFileAt (c :: t) with
    | some m => exact absurd (matchFileAt_marker hm) (by simp [h0])
    | none => exact ih ht

/-- A completion with no `FILE:` marker yields no file records. -/
theorem extractFilesList_eq_nil_of_no_marker {s : List Char}
    (h : containsSub "FILE:".data s = false) : extractFilesList s = [] := by
  rw [extractFilesList_eq, findFileMatch_none_of_no_marker h]

/-- The files of `parseResponse` are exactly the extraction result. -/
theorem parseResponse_files (content : List Char) (tpl : WebsiteTemplate)
    (single : Bool) :
    (parseResponse content tpl single).files = extractFilesList content := rfl

/-- A small concrete template record, used to instantiate theorems. -/
def sampleTemplate : WebsiteTemplate :=
  { id := "t0".data
    name := "T".data
    description := "d".data
    category := "c".data
    pages := []
    sharedStyles := []
    features := [] }

set_option maxRecDepth 4000 in
/-- The fallback description always has length at least 50 (its fixed
trailing paragraph alone is longer). -/
theorem mkFallback_length (tpl : WebsiteTemplate) (single : Bool) (n : Nat) :
    50 ≤ (mkFallback tpl single n).length := by
  have step : ∀ (x y : List Char), y.length ≤ (x ++ y).length := by
    intro x y
    rw [List.length_append]
    omega
  unfold mkFallback
  refine le_trans ?_ (step _ _)
  decide

/-- The fallback description never begins with a low-information opener
(it starts with the fixed `I've`). -/
theorem lowInfoOpener_mkFallback (tpl : WebsiteTemplate) (single : Bool)
    (n : Nat) : lowInfoOpener (mkFallback tpl single n) = false := by
  cases single <;> rfl

/-! ### Claim C1 — counterexample part -/

/-- C1 (counterexample): a single well-formed `FILE:`-marked block with no
language tag yields one record whose language is `"text"`, not `"html"` as
the claim states — the destructuring default on line 717 is `'text'`. -/
theorem claim1_language_counterexample :
    (parseResponse "FILE: a.html\n```\n<p>hi</p>\n```".data sampleTemplate
        true).files =
      [{ path := "a.html".data, content := "<p>hi</p>".data,
         language := "text".data }] ∧
    "text".data ≠ "html".data := by
  constructor
  · decide
  · decide

/-! ### Claim C2 -/

/-- C2 (counterexample): a completion that is exactly one bare ```html
fenced block (M = 1) yields zero records, not one record named
`index.html` — no bare-fence fallback exists in `parseResponse`. -/
theorem claim2_no_fallback_counterexample :
    (parseResponse "```html\n<h1>Hi</h1>\n```".data sampleTemplate
      true).files = [] := by decide

/-- C2 (amended): for every completion containing no `FILE:` marker — in
particular one made only of bare ```html fenced blocks — extraction
returns zero records; the synthetic `index.html`/`about.html`/… fallback
of the claim does not exist in the code. -/
theorem claim2_bare_fences_yield_nothing (content : List Char)
    (tpl : WebsiteTemplate) (single : Bool)
    (h : containsSub "FILE:".data content = false) :
    (parseResponse content tpl single).files = [] := by
  rw [parseResponse_files]
  exact extractFilesList_eq_nil_of_no_marker h

/-- Witness for `claim2_bare_fences_yield_nothing` at a concrete bare-fence
completion. -/
theorem claim2_bare_fences_witness :
    containsSub "FILE:".data "```html\n<h1>Hi</h1>\n```".data = false ∧
    (parseResponse "```html\n<h1>Hi</h1>\n```".data sampleTemplate
      true).files = [] :=
  ⟨by decide,
   claim2_bare_fences_yield_nothing _ sampleTemplate true (by decide)⟩

/-! ### Claim C3 — counterexample part -/

/-- C3 (counterexample): a completion whose final (and only) `FILE:` block
has no closing fence yields no record at all — the regex of line 713
requires the closing three backticks, so end-of-text does not close the
block as the claim states. -/
theorem claim3_truncated_counterexample :
    (parseResponse "FILE: index.html\n```html\n<p>x".data sampleTemplate
      true).files = [] := by decide

/-! ### Claim C5 -/

/-- C5 (amended): the cleaned remainder is accepted as-is exactly when its
length is at least 50 and it does not begin (case-insensitively) with
`Generated File`, `Here` or `The`; no fence-marker or brace test is
performed; in the rejected case the deterministic context fallback is
substituted. -/
theorem claim5_acceptance (content : List Char) (tpl : WebsiteTemplate)
    (single : Bool) (n : Nat) :
    (descriptionOf content tpl single n = cleanDescription content ↔
      (50 ≤ (cleanDescription content).length ∧
        lowInfoOpener (cleanDescription content) = false)) ∧
    (((cleanDescription content).length < 50 ∨
        lowInfoOpener (cleanDescription content) = true) →
      descriptionOf content tpl single n = mkFallback tpl single n) := by
  by_cases hcond :
      (decide ((cleanDescription content).length < 50) ||
        lowInfoOpener (cleanDescription content)) = true
  · have hout : descriptionOf content tpl single n = mkFallback tpl single n := by
      unfold descriptionOf
      rw [if_pos hcond]
    simp only [Bool.or_eq_true, decide_eq_true_eq] at hcond
    constructor
    · rw [hout]
      constructor
      · intro hEq
        have hlen : 50 ≤ (cleanDescription content).length :=
          hEq ▸ mkFallback_length tpl single n
        have hop : lowInfoOpener (cleanDescription content) = false :=
          hEq ▸ lowInfoOpener_mkFallback tpl single n
        rcases hcond with hlt | hop1
        · omega
        · rw [hop] at hop1
          exact absurd hop1 (by simp)
      · rintro ⟨hlen, hop⟩
        rcases hcond with hlt | hop1
        · omega
        · rw [hop] at hop1
          exact absurd hop1 (by simp)
    · intro _
      exact hout
  · have hout : descriptionOf content tpl single n = cleanDescription content := by
      unfold descriptionOf
      rw [if_neg hcond]
    simp only [Bool.or_eq_true, decide_eq_true_eq, not_or] at hcond
    obtain ⟨hlen, hop⟩ := hcond
    constructor
    · rw [hout]
      simp only [true_iff]
      exact ⟨by omega, by simpa using hop⟩
    · intro h
      rcases h with hlt | hop1
      · omega
      · exact absurd hop1 hop

/-- A cleaned remainder of length at least 50 with brace characters and no
banned opener (the claim says braces must force the fallback). -/
def braceExample : List Char :=
  "This website styles the body element with body \x7bcolor: red\x7d and also adds generous padding everywhere.".data

/-- C5 (counterexample): the sanitizer accepts `braceExample` as-is even
though it contains brace characters, contradicting the claim that any
residual brace forces the fallback — the code only tests length and the
opener pattern (line 734). -/
theorem claim5_brace_counterexample :
    descriptionOf braceExample sampleTemplate true 0 =
      cleanDescription braceExample ∧
    (cleanDescription braceExample).contains '\x7b' = true ∧
    cleanDescription braceExample ≠ mkFallback sampleTemplate true 0 := by
  refine ⟨?_, by decide, by decide⟩
  decide

/-- Witness for `claim5_acceptance`: its acceptance direction applied at
`braceExample`. -/
theorem claim5_acceptance_witness :
    descriptionOf braceExample sampleTemplate true 0 =
      cleanDescription braceExample :=
  (claim5_acceptance braceExample sampleTemplate true 0).1.mpr
    ⟨by decide, by decide⟩

/-! ### Claim C6 -/

/-- C6: the edit merge overwrites exactly the snapshot files whose path
appears in the edit response (with the first returned record of that
path), leaves every other snapshot file untouched, and preserves the
path list — a returned record with an unknown path adds no file. -/
theorem claim6_edit_merge (prev edited : List ParsedFile) :
    (mergeEditedFiles prev edited).map ParsedFile.path =
      prev.map ParsedFile.path ∧
    ∀ i, ∀ hi : i < prev.length,
      ((∀ ef ∈ edited, ef.path ≠ (prev.get ⟨i, hi⟩).path) →
        (mergeEditedFiles prev edited)[i]? = some (prev.get ⟨i, hi⟩)) ∧
      (∀ ef, (edited.find? fun e => e.path == (prev.get ⟨i, hi⟩).path) =
          some ef →
        (mergeEditedFiles prev edited)[i]? = some ef) := by
  constructor
  · unfold mergeEditedFiles
    rw [List.map_map]
    apply List.map_congr_left
    intro f _
    cases hf : edited.find? fun e => e.path == f.path with
    | none => simp [hf]
    | some ef =>
      have := List.find?_some hf
      simp only [Function.comp_apply, hf, Option.getD_some]
      exact eq_of_beq this
  · intro i hi
    have hget : (mergeEditedFiles prev edited)[i]? =
        some ((edited.find? fun e =>
          e.path == (prev.get ⟨i, hi⟩).path).getD (prev.get ⟨i, hi⟩)) := by
      unfold mergeEditedFiles
      rw [List.getElem?_map, List.getElem?_eq_getElem hi]
      simp [List.get_eq_getElem]
    constructor
    · intro hnone
      have hf : (edited.find? fun e =>
          e.path == (prev.get ⟨i, hi⟩).path) = none := by
        rw [List.find?_eq_none]
        intro ef hef
        simpa using hnone ef hef
      rw [hget, hf]
      simp
    · intro ef hef
      rw [hget, hef]
      simp

/-- Witness for `claim6_edit_merge` at a concrete snapshot and edit
response: `a.html` is overwritten, `b.css` untouched, the path list is
unchanged, and the alien path `new.js` adds nothing. -/
theorem claim6_edit_merge_witness :
    (mergeEditedFiles
        [⟨"a.html".data, "old".data, "html".data⟩,
         ⟨"b.css".data, "keep".data, "css".data⟩]
        [⟨"a.html".data, "new".data, "html".data⟩,
         ⟨"new.js".data, "x".data, "javascript".data⟩]).map
      ParsedFile.path =
      ["a.html".data, "b.css".data] ∧
    (mergeEditedFiles
        [⟨"a.html".data, "old".data, "html".data⟩,
         ⟨"b.css".data, "keep".data, "css".data⟩]
        [⟨"a.html".data, "new".data, "html".data⟩,
         ⟨"new.js".data, "x".data, "javascript".data⟩])[1]? =
      some ⟨"b.css".data, "keep".data, "css".data⟩ := by
  constructor
  · have h := (claim6_edit_merge
      [⟨"a.html".data, "old".data, "html".data⟩,
       ⟨"b.css".data, "keep".data, "css".data⟩]
      [⟨"a.html".data, "new".data, "html".data⟩,
       ⟨"new.js".data, "x".data, "javascript".data⟩]).1
    rw [h]
    decide
  · exact ((claim6_edit_merge _ _).2 1 (by decide)).1 (by decide)

/-! ### Claim C7 -/

/-- C7: the three contract values of the truncation detector — the empty
string is not truncated, an unterminated attribute value is, a balanced
paragraph is not (spec §8). -/
theorem claim7_isTruncated_values :
    isTruncated "".data = false ∧
    isTruncated "<div class=\"foo".data = true ∧
    isTruncated "<p>Hello</p>".data = false := by decide

/-! ### Claim C8 -/

/-- C8: any non-success outcome of the single Gemini call makes
`generateWithGemini` reject with the typed generation-failed error; the
function consumes exactly one fetch outcome, so no retry can occur inside
it. -/
theorem claim8_transport_failure (outcome : GeminiOutcome)
    (tpl : WebsiteTemplate) (single : Bool)
    (h : ∀ c, outcome ≠ GeminiOutcome.success c) :
    generateWithGemini outcome tpl single =
      Except.error GenError.generationFailed := by
  cases outcome with
  | success c => exact absurd rfl (h c)
  | httpFailure => rfl
  | networkFailure => rfl

/-- Witness for `claim8_transport_failure` at the non-success HTTP
outcome. -/
theorem claim8_transport_failure_witness :
    generateWithGemini GeminiOutcome.httpFailure sampleTemplate true =
      Except.error GenError.generationFailed :=
  claim8_transport_failure GeminiOutcome.httpFailure sampleTemplate true
    (fun c h => GeminiOutcome.noConfusion h)

/-! ### Claim C10 -/

/-- C10: the image-decoration stage returns the original file list
unchanged on any fetch failure, preserves the number of files, and
returns byte-for-byte unchanged every file that is not an `.html` file
whose content contains `<body` — for every possible inner rewriting
function (so the frame property is independent of the rewrite details);
being a total function, the stage never fails the generation. -/
theorem claim10_decoration_frame (rewriteHtml : ParsedFile → List Char)
    (files : List ParsedFile) :
    decorateFiles FetchResult.failure rewriteHtml files = files ∧
    ∀ imgs : List (List Char),
      (decorateFiles (FetchResult.ok imgs) rewriteHtml files).length =
        files.length ∧
      ∀ i, ∀ hi : i < files.length,
        (".html".data.isSuffixOf (files.get ⟨i, hi⟩).path &&
          containsSub "<body".data (files.get ⟨i, hi⟩).content) = false →
        (decorateFiles (FetchResult.ok imgs) rewriteHtml files)[i]? =
          some (files.get ⟨i, hi⟩) := by
  refine ⟨rfl, ?_⟩
  intro imgs
  by_cases him : 0 < imgs.length
  · refine ⟨by simp [decorateFiles, him], ?_⟩
    intro i hi hcond
    simp only [decorateFiles, if_pos him]
    rw [List.getElem?_map, List.getElem?_eq_getElem hi]
    simp only [List.get_eq_getElem, Fin.getElem_fin] at hcond
    simp only [Option.map_some', Option.some.injEq, List.get_eq_getElem, Fin.getElem_fin]
    rw [ite_eq_right_iff]
    intro hcond2
    exact absurd hcond2 (by simp [hcond])
  · refine ⟨by simp [decorateFiles, him], ?_⟩
    intro i hi hcond
    simp only [decorateFiles, if_neg him]
    rw [List.getElem?_eq_getElem hi]
    simp [List.get_eq_getElem]

/-- Witness for `claim10_decoration_frame`: a CSS file survives a
successful decoration pass unchanged, and a fetch failure returns the
whole list. -/
theorem claim10_decoration_frame_witness :
    decorateFiles FetchResult.failure (fun f => f.content)
      [⟨"style.css".data, "body".data, "css".data⟩] =
      [⟨"style.css".data, "body".data, "css".data⟩] ∧
    (decorateFiles (FetchResult.ok ["u".data]) (fun f => f.content)
      [⟨"style.css".data, "body".data, "css".data⟩])[0]? =
      some ⟨"style.css".data, "body".data, "css".data⟩ :=
  ⟨(claim10_decoration_frame _ _).1,
   (((claim10_decoration_frame (fun f => f.content)
        [⟨"style.css".data, "body".data, "css".data⟩]).2
      ["u".data]).2 0 (by decide)) (by decide)⟩

/-! ### Claim C9 -/

set_option maxRecDepth 100000 in
/-- C9 (counterexample): the description transformation is not idempotent.
On the empty completion the first pass produces the fallback description;
the fallback contains blank lines, which the blank-line `replace` of a
second pass deletes, so applying the transformation to its own output
changes it. -/
theorem claim9_counterexample :
    descriptionOf (descriptionOf [] sampleTemplate true 0)
        sampleTemplate true 0 ≠
      descriptionOf [] sampleTemplate true 0 := by decide

/-- C9 (amended): the transformation is idempotent exactly on the inputs
where nothing forces a change: when the cleaned text is accepted (length
at least 50, no low-information opener) and is itself a fixed point of the
cleaning chain, a second application returns the same result. -/
theorem claim9_conditional_idempotence (text : List Char)
    (tpl : WebsiteTemplate) (single : Bool) (n : Nat)
    (hlen : 50 ≤ (cleanDescription text).length)
    (hop : lowInfoOpener (cleanDescription text) = false)
    (hfix : cleanDescription (cleanDescription text) = cleanDescription text) :
    descriptionOf (descriptionOf text tpl single n) tpl single n =
      descriptionOf text tpl single n := by
  have hcond : (decide ((cleanDescription text).length < 50) ||
      lowInfoOpener (cleanDescription text)) = true → False := by
    intro h
    rcases Bool.or_eq_true _ _ |>.mp h with h1 | h2
    · rw [decide_eq_true_eq] at h1
      omega
    · rw [hop] at h2
      exact absurd h2 (by simp)
  have hout : descriptionOf text tpl single n = cleanDescription text := by
    unfold descriptionOf
    exact if_neg hcond
  rw [hout]
  unfold descriptionOf
  rw [hfix]
  exact if_neg hcond

/-- Witness for `claim9_conditional_idempotence` at a 64-character prose
completion, which the cleaning chain leaves unchanged. -/
theorem claim9_conditional_idempotence_witness :
    descriptionOf (descriptionOf
        "A cozy coffee shop site with a menu, a gallery and a contact form.".data
        sampleTemplate true 0) sampleTemplate true 0 =
      descriptionOf
        "A cozy coffee shop site with a menu, a gallery and a contact form.".data
        sampleTemplate true 0 :=
  claim9_conditional_idempotence _ sampleTemplate true 0 (by decide)
    (by decide) (by decide)

/-! ### Claim C3 — amended part: the closing fence is mandatory -/

theorem mem_of_getElem?_some {l : List Char} {k : Nat} {a : Char}
    (h : l[k]? = some a) : a ∈ l := by
  obtain ⟨hk, rfl⟩ := List.getElem?_eq_some.mp h
  exact List.getElem_mem hk

/-- A matched opening or closing fence contributes three backtick
characters. -/
theorem fence_chars {x : List Char} (h : "```".data.isPrefixOf x = true) :
    x[0]? = some '\x60' ∧ x[1]? = some '\x60' ∧ x[2]? = some '\x60' := by
  rw [List.isPrefixOf_iff_prefix] at h
  obtain ⟨r, hr⟩ := h
  have hx : x = '\x60' :: '\x60' :: '\x60' :: r := by rw [← hr]; rfl
  rw [hx]
  refine ⟨?_, ?_, ?_⟩ <;> simp

/-- In a text whose only backticks are one embedded `` ``` `` literal, a
backtick character sits at one of the three literal positions. -/
theorem tick_pos {A B : List Char} (hA : ∀ c ∈ A, c ≠ '\x60')
    (hB : ∀ c ∈ B, c ≠ '\x60') {k : Nat}
    (h : (A ++ '\x60' :: '\x60' :: '\x60' :: B)[k]? = some '\x60') :
    k = A.length ∨ k = A.length + 1 ∨ k = A.length + 2 := by
  rw [List.getElem?_append] at h
  split at h
  · exact absurd rfl (hA _ (mem_of_getElem?_some h))
  · next hk =>
    push_neg at hk
    rcases hd : k - A.length with _ | _ | _ | d
    · omega
    · omega
    · omega
    · rw [hd] at h
      simp only [List.getElem?_cons_succ] at h
      exact absurd rfl (hB _ (mem_of_getElem?_some h))

/-- In such a text a whole fence can only sit exactly at the literal. -/
theorem fence_at {A B : List Char} (hA : ∀ c ∈ A, c ≠ '\x60')
    (hB : ∀ c ∈ B, c ≠ '\x60') {i : Nat}
    (h : "```".data.isPrefixOf
      ((A ++ '\x60' :: '\x60' :: '\x60' :: B).drop i) = true) :
    i = A.length := by
  obtain ⟨h0, h1, h2⟩ := fence_chars h
  rw [List.getElem?_drop] at h0 h1 h2
  have p0 := tick_pos hA hB h0
  have p1 := tick_pos hA hB h1
  have p2 := tick_pos hA hB h2
  omega

theorem findFileMatch_eq_none_iff {s : List Char} :
    findFileMatch s = none ↔ ∀ k, matchFileAt (s.drop k) = none := by
  induction s with
  | nil =>
    simp only [findFileMatch, List.drop_nil]
    exact ⟨fun h _ => h, fun h => h 0⟩
  | cons c t ih =>
    simp only [findFileMatch]
    constructor
    · intro h k
      cases hm : matchFileAt (c :: t) with
      | some m => rw [hm] at h; exact absurd h (by simp)
      | none =>
        rw [hm] at h
        cases k with
        | zero => exact hm
        | succ j => exact ih.mp h j
    · intro h
      have h0 := h 0
      simp only [List.drop_zero] at h0
      rw [h0]
      exact ih.mpr fun k => h (k + 1)

/-- C3 (amended): a `FILE:` block whose fenced body never reaches a
closing fence produces no record at all — the regex of line 713 requires
the closing fence, so a truncated final file is dropped rather than
captured to end-of-text.  (Backtick-free prose, path and content keep the
opening fence the only fence; a language tag is made of word characters.) -/
theorem claim3_requires_closing_fence (prose path lang content : List Char)
    (tpl : WebsiteTemplate) (single : Bool)
    (hpro : ∀ c ∈ prose, c ≠ '\x60') (hpath : ∀ c ∈ path, c ≠ '\x60')
    (hlang : ∀ c ∈ lang, isWordChar c = true)
    (hcon : ∀ c ∈ content, c ≠ '\x60') :
    (parseResponse
      (prose ++ "FILE: ".data ++ path ++ "\n```".data ++ lang ++
        "\n".data ++ content) tpl single).files = [] := by
  rw [parseResponse_files]
  have hshape : prose ++ "FILE: ".data ++ path ++ "\n```".data ++ lang ++
      "\n".data ++ content =
      (prose ++ "FILE: ".data ++ path ++ "\n".data) ++
        '\x60' :: '\x60' :: '\x60' :: (lang ++ "\n".data ++ content) := by
    simp only [List.append_assoc]
    rfl
  rw [hshape]
  set A := prose ++ "FILE: ".data ++ path ++ "\n".data with hA'
  set B := lang ++ "\n".data ++ content with hB'
  have hA : ∀ c ∈ A, c ≠ '\x60' := by
    intro c hc
    rw [hA'] at hc
    simp only [List.append_assoc, List.mem_append] at hc
    rcases hc with h | h | h | h
    · exact hpro c h
    · exact (by decide : ∀ x ∈ "FILE: ".data, x ≠ '\x60') c h
    · exact hpath c h
    · exact (by decide : ∀ x ∈ "\n".data, x ≠ '\x60') c h
  have hB : ∀ c ∈ B, c ≠ '\x60' := by
    intro c hc
    rw [hB'] at hc
    simp only [List.append_assoc, List.mem_append] at hc
    rcases hc with h | h | h
    · intro heq
      subst heq
      exact absurd (hlang _ h) (by decide)
    · exact (by decide : ∀ x ∈ "\n".data, x ≠ '\x60') c h
    · exact hcon c h
  rw [extractFilesList_eq]
  have hnone : findFileMatch (A ++ '\x60' :: '\x60' :: '\x60' :: B) = none := by
    rw [findFileMatch_eq_none_iff]
    intro k
    cases hm : matchFileAt ((A ++ '\x60' :: '\x60' :: '\x60' :: B).drop k) with
    | none => rfl
    | some m =>
      exfalso
      obtain ⟨i, j, hi5, hij, hf1, hf2, -⟩ := matchFileAt_sound hm
      rw [List.drop_drop, Nat.add_comm] at hf1 hf2
      have e1 := fence_at hA hB hf1
      have e2 := fence_at hA hB hf2
      omega
  rw [hnone]

/-- Witness for `claim3_requires_closing_fence` at a concrete truncated
completion. -/
theorem claim3_requires_closing_fence_witness :
    (parseResponse
      ("Intro.\n".data ++ "FILE: ".data ++ "index.html".data ++
        "\n```".data ++ "html".data ++ "\n".data ++ "<p>x".data)
      sampleTemplate true).files = [] :=
  claim3_requires_closing_fence "Intro.\n".data "index.html".data
    "html".data "<p>x".data sampleTemplate true (by decide) (by decide)
    (by decide) (by decide)

/-! ### Claim C4 — the placeholder-file guarantee -/

theorem containsSub_cons_false {lit : List Char} {c : Char} {t : List Char}
    (h : containsSub lit (c :: t) = false) :
    lit.isPrefixOf (c :: t) = false ∧ containsSub lit t = false := by
  simp only [containsSub, Bool.or_eq_false_iff] at h
  exact h

theorem containsSub_drop_false {lit s : List Char} {n : Nat}
    (h : containsSub lit s = false) : containsSub lit (s.drop n) = false := by
  cases hd : containsSub lit (s.drop n) with
  | false => rfl
  | true =>
    obtain ⟨i, hi⟩ := containsSub_iff.mp hd
    rw [List.drop_drop] at hi
    exact absurd (containsSub_iff.mpr ⟨n + i, hi⟩) (by simp [h])

/-- A match of the description file-block regex also starts with `FILE:`. -/
theorem matchDescFileAt_marker {s rest : List Char}
    (h : matchDescFileAt s = some rest) : "FILE:".data.isPrefixOf s := by
  unfold matchDescFileAt at h
  cases h1 : dropLit "FILE:".data s with
  | none => rw [h1] at h; exact absurd h (by simp)
  | some s1 => exact dropLit_isPrefixOf h1

/-- A match of the bare code-fence regex starts with a fence. -/
theorem matchCodeBlockAt_marker {s rest : List Char}
    (h : matchCodeBlockAt s = some rest) : "```".data.isPrefixOf s := by
  unfold matchCodeBlockAt at h
  cases h1 : dropLit "```".data s with
  | none => rw [h1] at h; exact absurd h (by simp)
  | some s1 => exact dropLit_isPrefixOf h1

/-- Without a `FILE:` marker the first `replace` is the identity. -/
theorem removeFileBlocks_id {s : List Char}
    (h : containsSub "FILE:".data s = false) : removeFileBlocks s = s := by
  have H : ∀ n, ∀ s : List Char, s.length = n →
      containsSub "FILE:".data s = false → removeFileBlocks s = s := by
    intro n
    induction n using Nat.strong_induction_on with
    | _ n ih =>
      intro s hlen hs
      cases s with
      | nil => rw [removeFileBlocks_eq]
      | cons c t =>
        obtain ⟨h0, ht⟩ := containsSub_cons_false hs
        rw [removeFileBlocks_eq]
        cases hm : matchDescFileAt (c :: t) with
        | some rest =>
          exact absurd (matchDescFileAt_marker hm) (by simp [h0])
        | none =>
          show (match matchDescFileAt (c :: t) with
            | some rest => removeFileBlocks rest
            | none => c :: removeFileBlocks t) = c :: t
          rw [hm]
          show c :: removeFileBlocks t = c :: t
          rw [ih t.length (by simp [← hlen]) t rfl ht]
  exact H s.length s rfl h

/-- Without a fence the second `replace` is the identity. -/
theorem removeCodeBlocks_id {s : List Char}
    (h : containsSub "```".data s = false) : removeCodeBlocks s = s := by
  have H : ∀ n, ∀ s : List Char, s.length = n →
      containsSub "```".data s = false → removeCodeBlocks s = s := by
    intro n
    induction n using Nat.strong_induction_on with
    | _ n ih =>
      intro s hlen hs
      cases s with
      | nil => rw [removeCodeBlocks_eq]
      | cons c t =>
        obtain ⟨h0, ht⟩ := containsSub_cons_false hs
        rw [removeCodeBlocks_eq]
        cases hm : matchCodeBlockAt (c :: t) with
        | some rest =>
          exact absurd (matchCodeBlockAt_marker hm) (by simp [h0])
        | none =>
          show (match matchCodeBlockAt (c :: t) with
            | some rest => removeCodeBlocks rest
            | none => c :: removeCodeBlocks t) = c :: t
          rw [hm]
          show c :: removeCodeBlocks t = c :: t
          rw [ih t.length (by simp [← hlen]) t rfl ht]
  exact H s.length s rfl h

/-- A newline-free pattern that prefixes the blank-line-stripped text
already prefixed the text: stripping only happens at line starts, and the
first character it can remove is reached only across a newline. -/
theorem gm_prefix_rev {l₂ : List Char}
    (hl : ∀ c ∈ l₂, isNewlineChar c = false) :
    ∀ s : List Char, l₂.isPrefixOf (gmStep s false) = true →
      l₂.isPrefixOf s = true := by
  induction l₂ with
  | nil => intro s _; simp [List.isPrefixOf]
  | cons d l₃ ih =>
    intro s hpre
    cases s with
    | nil =>
      rw [gmStep_eq] at hpre
      exact absurd hpre (by simp [List.isPrefixOf])
    | cons c t =>
      rw [gmStep_eq] at hpre
      simp only [List.isPrefixOf, Bool.and_eq_true, beq_iff_eq] at hpre ⊢
      obtain ⟨rfl, hpre⟩ := hpre
      have hc : isNewlineChar d = false := hl d (by simp)
      rw [hc] at hpre
      exact ⟨rfl, ih (fun c hc => hl c (by simp [hc])) t hpre⟩

theorem containsSub_nil_false {lit : List Char} (hne : lit ≠ []) :
    containsSub lit [] = false := by
  cases lit with
  | nil => exact absurd rfl hne
  | cons d l => simp [containsSub, List.isPrefixOf]

theorem gmStep_nil (b : Bool) : gmStep [] b = [] := gmStep_eq [] b

theorem gmStep_cons_false (c : Char) (t : List Char) :
    gmStep (c :: t) false = c :: gmStep t (isNewlineChar c) :=
  gmStep_eq (c :: t) false

theorem gmStep_cons_true (c : Char) (t : List Char) :
    gmStep (c :: t) true =
      match matchBlankAt (c :: t) with
      | some rest => gmStep rest true
      | none => c :: gmStep t (isNewlineChar c) :=
  gmStep_eq (c :: t) true

theorem collapseNL_nil : collapseNL [] = [] := collapseNL_eq []

theorem collapseNL_cons (c : Char) (t : List Char) :
    collapseNL (c :: t) =
      match matchBigNLAt (c :: t) with
      | some rest => '\n' :: '\n' :: collapseNL rest
      | none => c :: collapseNL t :=
  collapseNL_eq (c :: t)

/-- The blank-line `replace` introduces no new occurrence of a
newline-free pattern: every removal starts at a line start and ends with
the newline that closes it, so the characters around a removal are
separated by a newline in the output as well. -/
theorem gm_no_new {lit : List Char}
    (hlit : ∀ c ∈ lit, isNewlineChar c = false) (hne : lit ≠ []) :
    ∀ s b, containsSub lit s = false →
      containsSub lit (gmStep s b) = false := by
  have H : ∀ n, ∀ s : List Char, ∀ b, s.length = n →
      containsSub lit s = false → containsSub lit (gmStep s b) = false := by
    intro n
    induction n using Nat.strong_induction_on with
    | _ n ih =>
      intro s b hlen hs
      have emit : ∀ c : Char, ∀ t : List Char, (c :: t).length = n →
          containsSub lit (c :: t) = false →
          containsSub lit (c :: gmStep t (isNewlineChar c)) = false := by
        intro c t hlen2 hs2
        obtain ⟨h0, ht⟩ := containsSub_cons_false hs2
        have htail : containsSub lit (gmStep t (isNewlineChar c)) = false :=
          ih t.length (by simp [← hlen2]) t (isNewlineChar c) rfl ht
        simp only [containsSub, Bool.or_eq_false_iff]
        refine ⟨?_, htail⟩
        cases lit with
        | nil => exact absurd rfl hne
        | cons d l₃ =>
          cases hp : (d :: l₃).isPrefixOf (c :: gmStep t (isNewlineChar c)) with
          | false => rfl
          | true =>
            exfalso
            simp only [List.isPrefixOf, Bool.and_eq_true, beq_iff_eq] at hp
            obtain ⟨rfl, hp⟩ := hp
            have hd : isNewlineChar d = false := hlit d (by simp)
            rw [hd] at hp
            have := gm_prefix_rev (fun c hc => hlit c (by simp [hc])) t hp
            simp only [List.isPrefixOf, Bool.and_eq_true, beq_iff_eq] at h0
            simp [this] at h0
      cases s with
      | nil =>
        rw [gmStep_nil]
        exact containsSub_nil_false hne
      | cons c t =>
        cases b with
        | false =>
          rw [gmStep_cons_false]
          exact emit c t hlen hs
        | true =>
          rw [gmStep_cons_true]
          cases hm : matchBlankAt (c :: t) with
          | some rest =>
            show containsSub lit (gmStep rest true) = false
            obtain ⟨nn, -, hrest⟩ := matchBlankAt_rest hm
            have hlt := matchBlankAt_rest_lt hm
            refine ih rest.length (hlen ▸ hlt) rest true rfl ?_
            rw [hrest]
            exact containsSub_drop_false hs
          | none =>
            show containsSub lit (c :: gmStep t (isNewlineChar c)) = false
            exact emit c t hlen hs
  exact fun s b hs => H s.length s b rfl hs

/-- Like `gm_prefix_rev` for the newline-collapsing `replace`. -/
theorem collapse_prefix_rev {l₂ : List Char}
    (hl : ∀ c ∈ l₂, isNewlineChar c = false) :
    ∀ s : List Char, l₂.isPrefixOf (collapseNL s) = true →
      l₂.isPrefixOf s = true := by
  induction l₂ with
  | nil => intro s _; simp [List.isPrefixOf]
  | cons d l₃ ih =>
    intro s hpre
    cases s with
    | nil =>
      rw [collapseNL_nil] at hpre
      exact absurd hpre (by simp [List.isPrefixOf])
    | cons c t =>
      rw [collapseNL_cons] at hpre
      cases hm : matchBigNLAt (c :: t) with
      | some rest =>
        rw [hm] at hpre
        simp only [List.isPrefixOf, Bool.and_eq_true, beq_iff_eq] at hpre
        obtain ⟨rfl, -⟩ := hpre
        exact absurd (hl '\n' (by simp)) (by simp [isNewlineChar])
      | none =>
        rw [hm] at hpre
        simp only [List.isPrefixOf, Bool.and_eq_true, beq_iff_eq] at hpre ⊢
        obtain ⟨rfl, hpre⟩ := hpre
        exact ⟨rfl, ih (fun c hc => hl c (by simp [hc])) t hpre⟩

theorem dropWhile_eq_drop_len {p : Char → Bool} {l : List Char} :
    l.dropWhile p = l.drop (l.takeWhile p).length := by
  have h := List.takeWhile_append_dropWhile (p := p) (l := l)
  calc l.dropWhile p
      = (l.takeWhile p ++ l.dropWhile p).drop (l.takeWhile p).length :=
        (List.drop_left _ _).symm
    _ = l.drop (l.takeWhile p).length := by rw [h]

/-- The newline-run collapse introduces no new occurrence of a
newline-free pattern: removed runs are replaced by newlines. -/
theorem collapse_no_new {lit : List Char}
    (hlit : ∀ c ∈ lit, isNewlineChar c = false) (hne : lit ≠ []) :
    ∀ s, containsSub lit s = false →
      containsSub lit (collapseNL s) = false := by
  have hnl : ∀ x : List Char, containsSub lit x = false →
      containsSub lit ('\n' :: x) = false := by
    intro x hx
    simp only [containsSub, Bool.or_eq_false_iff]
    refine ⟨?_, hx⟩
    cases lit with
    | nil => exact absurd rfl hne
    | cons d l₃ =>
      cases hp : (d :: l₃).isPrefixOf ('\n' :: x) with
      | false => rfl
      | true =>
        exfalso
        simp only [List.isPrefixOf, Bool.and_eq_true, beq_iff_eq] at hp
        obtain ⟨rfl, -⟩ := hp
        exact absurd (hlit '\n' (by simp)) (by simp [isNewlineChar])
  have H : ∀ n, ∀ s : List Char, s.length = n →
      containsSub lit s = false → containsSub lit (collapseNL s) = false := by
    intro n
    induction n using Nat.strong_induction_on with
    | _ n ih =>
      intro s hlen hs
      cases s with
      | nil =>
        rw [collapseNL_nil]
        exact containsSub_nil_false hne
      | cons c t =>
        rw [collapseNL_cons]
        cases hm : matchBigNLAt (c :: t) with
        | some rest =>
          show containsSub lit ('\n' :: '\n' :: collapseNL rest) = false
          have hlt := matchBigNLAt_rest_lt hm
          have hrest : containsSub lit rest = false := by
            unfold matchBigNLAt at hm
            split at hm
            · simp only [Option.some.injEq] at hm
              rw [← hm, dropWhile_eq_drop_len]
              exact containsSub_drop_false hs
            · exact absurd hm (by simp)
          have htail : containsSub lit (collapseNL rest) = false :=
            ih rest.length (hlen ▸ hlt) rest rfl hrest
          exact hnl _ (hnl _ htail)
        | none =>
          show containsSub lit (c :: collapseNL t) = false
          obtain ⟨h0, ht⟩ := containsSub_cons_false hs
          have htail : containsSub lit (collapseNL t) = false :=
            ih t.length (by simp [← hlen]) t rfl ht
          simp only [containsSub, Bool.or_eq_false_iff]
          refine ⟨?_, htail⟩
          cases lit with
          | nil => exact absurd rfl hne
          | cons d l₃ =>
            cases hp : (d :: l₃).isPrefixOf (c :: collapseNL t) with
            | false => rfl
            | true =>
              exfalso
              simp only [List.isPrefixOf, Bool.and_eq_true, beq_iff_eq] at hp
              obtain ⟨rfl, hp⟩ := hp
              have := collapse_prefix_rev (fun c hc => hlit c (by simp [hc])) t hp
              simp only [List.isPrefixOf, Bool.and_eq_true, beq_iff_eq] at h0
              simp [this] at h0
  exact fun s hs => H s.length s rfl hs

theorem containsSub_empty_true (s : List Char) : containsSub [] s = true := by
  induction s with
  | nil => simp [containsSub, List.isPrefixOf]
  | cons c t ih => simp [containsSub, List.isPrefixOf]

theorem containsSub_infix_mono {lit t s : List Char} (hinf : t <:+: s)
    (h : containsSub lit s = false) : containsSub lit t = false := by
  have hne : lit ≠ [] := by
    intro hl
    rw [hl, containsSub_empty_true] at h
    exact absurd h (by simp)
  cases hq : containsSub lit t with
  | false => rfl
  | true =>
    exfalso
    obtain ⟨i, hi⟩ := containsSub_iff.mp hq
    obtain ⟨s₁, s₂, hdec⟩ := hinf
    rw [List.isPrefixOf_iff_prefix] at hi
    have hi' : lit <+: (t ++ s₂).drop i := by
      by_cases hile : i ≤ t.length
      · rw [List.drop_append_of_le_length hile]
        exact hi.trans (List.prefix_append _ _)
      · rw [List.drop_eq_nil_of_le (by omega)] at hi
        exact absurd (List.prefix_nil.mp hi) hne
    have hocc : lit.isPrefixOf (s.drop (s₁.length + i)) = true := by
      rw [← hdec, List.append_assoc, List.drop_append]
      rw [List.isPrefixOf_iff_prefix]
      exact hi'
    exact absurd (containsSub_iff.mpr ⟨s₁.length + i, hocc⟩) (by simp [h])

theorem jsTrim_infix_self (s : List Char) : jsTrim s <:+: s := by
  unfold jsTrim
  have h1 : s.dropWhile isJsSpace <:+ s := List.dropWhile_suffix _
  have h2 : (s.dropWhile isJsSpace).reverse.dropWhile isJsSpace <:+
      (s.dropWhile isJsSpace).reverse := List.dropWhile_suffix _
  have h3 : ((s.dropWhile isJsSpace).reverse.dropWhile isJsSpace).reverse <+:
      s.dropWhile isJsSpace := by
    rw [← List.reverse_suffix]
    simpa using h2
  exact h3.isInfix.trans h1.isInfix

/-- Cleaning a completion that has no marker and no fence cannot invent a
`FILE:` marker. -/
theorem cleanDescription_no_marker {content : List Char}
    (hF : containsSub "FILE:".data content = false)
    (hT : containsSub "```".data content = false) :
    containsSub "FILE:".data (cleanDescription content) = false := by
  unfold cleanDescription
  rw [removeFileBlocks_id hF, removeCodeBlocks_id hT]
  have hnl : ∀ c ∈ "FILE:".data, isNewlineChar c = false := by decide
  have hne : "FILE:".data ≠ [] := by decide
  exact containsSub_infix_mono (jsTrim_infix_self _)
    (collapse_no_new hnl hne _ (gm_no_new hnl hne content true hF))

/-- The placeholder-file guarantee, for marker-free and fence-free
completions whose fallback description is also marker-free. -/
theorem pipeline_placeholder_of_clean (content : List Char)
    (tpl : WebsiteTemplate) (single : Bool)
    (hF : containsSub "FILE:".data content = false)
    (hT : containsSub "```".data content = false)
    (hFb : containsSub "FILE:".data (mkFallback tpl single 0) = false) :
    generateFilesPipeline content tpl single = [placeholderFile] := by
  have hext : extractFilesList content = [] :=
    extractFilesList_eq_nil_of_no_marker hF
  have hdesc : containsSub "FILE:".data
      (descriptionOf content tpl single (extractFilesList content).length) =
        false := by
    rw [hext]
    show containsSub "FILE:".data (descriptionOf content tpl single 0) = false
    by_cases hc : (decide ((cleanDescription content).length < 50) ||
        lowInfoOpener (cleanDescription content)) = true
    · have hout : descriptionOf content tpl single 0 = mkFallback tpl single 0 := by
        unfold descriptionOf
        exact if_pos hc
      rw [hout]
      exact hFb
    · have hout : descriptionOf content tpl single 0 = cleanDescription content := by
        unfold descriptionOf
        exact if_neg hc
      rw [hout]
      exact cleanDescription_no_marker hF hT
  have hparsed :
      extractFilesList (parseResponse content tpl single).content = [] :=
    extractFilesList_eq_nil_of_no_marker hdesc
  simp [generateFilesPipeline, hparsed, parseResponse_files, hext]

/-- C4 (amended): when the completion contains neither a `FILE:` marker
nor a code fence — so that extraction finds nothing — the pipeline
substitutes exactly one placeholder file; the placeholder is the fixed
document `placeholderContent`, which is independent of the prompt (the
claim wrongly states it embeds the prompt verbatim). -/
theorem claim4_placeholder_substitution (content : List Char)
    (tpl : WebsiteTemplate) (single : Bool)
    (hF : containsSub "FILE:".data content = false)
    (hT : containsSub "```".data content = false)
    (hFb : containsSub "FILE:".data (mkFallback tpl single 0) = false) :
    generateFilesPipeline content tpl single = [placeholderFile] :=
  pipeline_placeholder_of_clean content tpl single hF hT hFb

set_option maxRecDepth 8000 in
/-- Witness for `claim4_placeholder_substitution` at a concrete markerless
completion. -/
theorem claim4_placeholder_substitution_witness :
    generateFilesPipeline "Hello.".data sampleTemplate true =
      [placeholderFile] :=
  claim4_placeholder_substitution "Hello.".data sampleTemplate true
    (by decide) (by decide) (by decide)

theorem prefix_getElem? {lit x : List Char} (h : lit <+: x) {k : Nat}
    (hk : k < lit.length) : x[k]? = lit[k]? := by
  obtain ⟨r, hr⟩ := h
  rw [← hr, List.getElem?_append]
  rw [if_pos hk]

/-- A newline-free pattern cannot straddle an append boundary whose left
side ends with a newline. -/
theorem containsSub_append_false {lit a b : List Char} (hne : lit ≠ [])
    (hnl : ∀ c ∈ lit, c ≠ '\n') (hlast : a.getLast? = some '\n')
    (ha : containsSub lit a = false) (hb : containsSub lit b = false) :
    containsSub lit (a ++ b) = false := by
  cases hq : containsSub lit (a ++ b) with
  | false => rfl
  | true =>
    exfalso
    obtain ⟨i, hi⟩ := containsSub_iff.mp hq
    by_cases hia : a.length ≤ i
    · obtain ⟨j, rfl⟩ : ∃ j, i = a.length + j := ⟨i - a.length, by omega⟩
      rw [List.drop_append] at hi
      exact absurd (containsSub_iff.mpr ⟨j, hi⟩) (by simp [hb])
    · push_neg at hia
      have hlitlen : 0 < lit.length := List.length_pos.mpr hne
      by_cases hfit : i + lit.length ≤ a.length
      · rw [List.drop_append_of_le_length (by omega)] at hi
        rw [List.isPrefixOf_iff_prefix, List.prefix_iff_eq_take,
          List.take_append_of_le_length (by rw [List.length_drop]; omega),
          ← List.prefix_iff_eq_take, ← List.isPrefixOf_iff_prefix] at hi
        exact absurd (containsSub_iff.mpr ⟨i, hi⟩) (by simp [ha])
      · push_neg at hfit
        have hk : a.length - 1 - i < lit.length := by omega
        rw [List.isPrefixOf_iff_prefix] at hi
        have hchar := prefix_getElem? hi hk
        rw [List.getElem?_drop] at hchar
        have hidx : i + (a.length - 1 - i) = a.length - 1 := by omega
        rw [hidx, List.getElem?_append] at hchar
        rw [if_pos (show a.length - 1 < a.length by omega)] at hchar
        rw [List.getLast?_eq_getElem?] at hlast
        rw [hlast] at hchar
        exact absurd rfl (hnl '\n' (mem_of_getElem?_some hchar.symm))

/-- A newline-free pattern absent from every chunk of a join whose chunks
end in newlines is absent from the join. -/
theorem containsSub_join_false {lit : List Char} (hne : lit ≠ [])
    (hnl : ∀ c ∈ lit, c ≠ '\n') :
    ∀ chunks : List (List Char),
      (∀ ch ∈ chunks, containsSub lit ch = false) →
      (∀ ch ∈ chunks.dropLast, ch.getLast? = some '\n') →
      containsSub lit chunks.join = false := by
  intro chunks
  induction chunks with
  | nil =>
    intro _ _
    exact containsSub_nil_false hne
  | cons ch rest ih =>
    intro hch hsep
    show containsSub lit (ch ++ rest.join) = false
    cases rest with
    | nil =>
      show containsSub lit (ch ++ []) = false
      rw [List.append_nil]
      exact hch ch (by simp)
    | cons ch2 rest2 =>
      refine containsSub_append_false hne hnl ?_ (hch ch (by simp)) ?_
      · exact hsep ch (by simp [List.dropLast_cons_of_ne_nil])
      · refine ih (fun x hx => hch x (by simp [hx])) ?_
        intro x hx
        refine hsep x ?_
        rw [List.dropLast_cons_of_ne_nil (by simp)]
        simp [hx]

set_option maxRecDepth 100000 in
/-- C4 (counterexample): for a generation with prompt `coffee shop` whose
completion is markerless, the substituted placeholder does not contain the
prompt text anywhere — its content is a fixed document, so the claim that
the placeholder embeds the original prompt verbatim fails. -/
theorem claim4_prompt_not_embedded :
    generateFilesPipeline "Hello.".data sampleTemplate true =
      [placeholderFile] ∧
    containsSub "coffee shop".data placeholderFile.content = false := by
  refine ⟨pipeline_placeholder_of_clean "Hello.".data sampleTemplate true
    (by decide) (by decide) (by decide), ?_⟩
  show containsSub "coffee shop".data placeholderContent = false
  unfold placeholderContent
  refine containsSub_join_false (by decide) (by decide) _ ?_ ?_
  · decide
  · decide

/-! ### Rendering well-formed completions: the generative direction of C1 -/

/-- One abstract file block a completion may carry: a path line, an optional
language tag, and a body. -/
structure FileBlock where
  path : List Char
  language : Option (List Char)
  body : List Char
deriving DecidableEq, Repr

/-- Render a block in the `FILE:` + fenced-code syntax targeted by the
extraction regex of `parseResponse` (ai-service.ts line 713). -/
def renderBlock (b : FileBlock) : List Char :=
  'F' :: 'I' :: 'L' :: 'E' :: ':' :: ' ' ::
    (b.path ++ '\n' :: '\x60' :: '\x60' :: '\x60' ::
      (b.language.getD [] ++ '\n' ::
        (b.body ++ ['\x60', '\x60', '\x60'])))

/-- The optional language tag, when present, is a nonempty `\w+` word. -/
def langOk : Option (List Char) → Bool
  | none => true
  | some l => !l.isEmpty && l.all isWordChar

/-- A block the regex can recover exactly: newline-free path that trims to
something, well-formed language tag, body that trims to something and is
backtick-free. -/
def WellFormedBlock (b : FileBlock) : Prop :=
  (∀ c ∈ b.path, notNewlineChar c = true) ∧ jsTrim b.path ≠ [] ∧
    langOk b.language = true ∧ jsTrim b.body ≠ [] ∧
    ∀ c ∈ b.body, c ≠ '\x60'

instance : DecidablePred WellFormedBlock := fun b => by
  unfold WellFormedBlock; exact inferInstance

/-- Interleave prose fragments and rendered blocks, ending in a final prose
fragment. -/
def renderCompletion : List (List Char × FileBlock) → List Char → List Char
  | [], final => final
  | (prose, b) :: rest, final =>
    prose ++ (renderBlock b ++ renderCompletion rest final)

/-- Every block is well formed and no prose fragment contains the `FILE:`
marker. -/
def WellFormedCompletion (blocks : List (List Char × FileBlock))
    (final : List Char) : Prop :=
  (∀ pb ∈ blocks, WellFormedBlock pb.2 ∧
      containsSub "FILE:".data pb.1 = false) ∧
    containsSub "FILE:".data final = false

instance (blocks : List (List Char × FileBlock)) (final : List Char) :
    Decidable (WellFormedCompletion blocks final) := by
  unfold WellFormedCompletion; exact inferInstance

/-- The record `parseResponse` should produce for a block: trimmed path,
trimmed body, lower-cased language defaulting to `text`. -/
def expectedRecord (b : FileBlock) : ParsedFile :=
  { path := jsTrim b.path
    content := jsTrim b.body
    language := toLowerList (b.language.getD "text".data) }

/-! #### First-success lemmas for the regex combinators -/

theorem descFrom_head (n : Nat) : ∃ tl, descFrom n = n :: tl := by
  cases n with
  | zero => exact ⟨[], rfl⟩
  | succ m => exact ⟨descFrom m, rfl⟩

/-- If the continuation succeeds on the maximal consumption, greedy `p*`
returns that success (it offers the longest candidate first). -/
theorem starGreedy_first {α : Type} {p : Char → Bool} {s : List Char}
    {k : List Char → Option α} {v : α}
    (h : k (s.dropWhile p) = some v) : starGreedy p s k = some v := by
  obtain ⟨tl, htl⟩ := descFrom_head (s.takeWhile p).length
  show (descFrom (s.takeWhile p).length).findSome?
      (fun j => k ((s.takeWhile p).drop j ++ s.dropWhile p)) = some v
  rw [htl, List.findSome?_cons]
  have hk : k ((s.takeWhile p).drop (s.takeWhile p).length ++
      s.dropWhile p) = some v := by
    rw [List.drop_length, List.nil_append]; exact h
  rw [hk]

/-- If the maximal run is nonempty and the continuation succeeds on it,
greedy capturing `p+` returns that success. -/
theorem plusGreedy_first {α : Type} {p : Char → Bool} {s : List Char}
    {k : List Char → List Char → Option α} {v : α}
    (hne : s.takeWhile p ≠ [])
    (h : k (s.takeWhile p) (s.dropWhile p) = some v) :
    plusGreedy p s k = some v := by
  obtain ⟨tl, htl⟩ := descFrom_head (s.takeWhile p).length
  have hpos : 0 < (s.takeWhile p).length := List.length_pos.mpr hne
  show ((descFrom (s.takeWhile p).length).filter (0 < ·)).findSome?
      (fun j => k ((s.takeWhile p).take j)
        ((s.takeWhile p).drop j ++ s.dropWhile p)) = some v
  rw [htl, List.filter_cons, if_pos (by simpa using hpos), List.findSome?_cons]
  have hk : k ((s.takeWhile p).take (s.takeWhile p).length)
      ((s.takeWhile p).drop (s.takeWhile p).length ++ s.dropWhile p) =
      some v := by
    rw [List.take_length, List.drop_length, List.nil_append]; exact h
  rw [hk]

/-- The greedy optional group takes the group when it can. -/
theorem optPlusGreedy_some_first {α : Type} {p : Char → Bool} {s : List Char}
    {k : Option (List Char) → List Char → Option α} {v : α}
    (hne : s.takeWhile p ≠ [])
    (h : k (some (s.takeWhile p)) (s.dropWhile p) = some v) :
    optPlusGreedy p s k = some v := by
  unfold optPlusGreedy
  have hp : plusGreedy p s (fun cap rest => k (some cap) rest) = some v :=
    plusGreedy_first hne h
  rw [hp]
  rfl

/-- The greedy optional group is skipped when the class does not match at
all. -/
theorem optPlusGreedy_none_first {α : Type} {p : Char → Bool} {s : List Char}
    {k : Option (List Char) → List Char → Option α} {v : α}
    (hemp : s.takeWhile p = [])
    (h : k none s = some v) : optPlusGreedy p s k = some v := by
  unfold optPlusGreedy
  have hp : plusGreedy p s (fun cap rest => k (some cap) rest) = none := by
    unfold plusGreedy
    rw [hemp]
    rfl
  rw [hp]
  exact h

theorem findSome?_range_first {β : Type} {f : Nat → Option β} {n c : Nat}
    {v : β} (hcn : c < n) (hfail : ∀ i, i < c → f i = none)
    (hv : f c = some v) : (List.range n).findSome? f = some v := by
  induction c generalizing f n with
  | zero =>
    cases n with
    | zero => omega
    | succ m => rw [List.range_succ_eq_map, List.findSome?_cons, hv]
  | succ c ih =>
    cases n with
    | zero => omega
    | succ m =>
      rw [List.range_succ_eq_map, List.findSome?_cons,
        hfail 0 (Nat.succ_pos c)]
      show ((List.range m).map Nat.succ).findSome? f = some v
      rw [List.findSome?_map]
      exact ih (by omega) (fun i hi => hfail (i + 1) (by omega)) hv

/-- The lazy star stops at the first position where the literal matches and
the continuation succeeds. -/
theorem lazyUpTo_first {α : Type} {lit s : List Char}
    {k : List Char → List Char → Option α} {v : α} {c : Nat} {r : List Char}
    (hc : c ≤ s.length)
    (hfail : ∀ j, j < c → dropLit lit (s.drop j) = none)
    (hr : dropLit lit (s.drop c) = some r)
    (h : k (s.take c) r = some v) :
    lazyUpTo lit s k = some v := by
  unfold lazyUpTo
  have hv2 : (fun j => match dropLit lit (s.drop j) with
      | some rest => k (s.take j) rest
      | none => none) c = some v := by
    show (match dropLit lit (s.drop c) with
      | some rest => k (s.take c) rest
      | none => none) = some v
    rw [hr]
    exact h
  have hfail2 : ∀ i, i < c → (fun j => match dropLit lit (s.drop j) with
      | some rest => k (s.take j) rest
      | none => none) i = none := by
    intro i hi
    show (match dropLit lit (s.drop i) with
      | some rest => k (s.take i) rest
      | none => none) = none
    rw [hfail i hi]
  exact findSome?_range_first (by omega) hfail2 hv2

/-! #### List helpers for computing matches on rendered blocks -/

theorem dropLit_append (lit s : List Char) : dropLit lit (lit ++ s) = some s := by
  induction lit with
  | nil => rfl
  | cons c t ih => simp [dropLit, ih]

theorem dropLit_fence_cons {c : Char} {t : List Char} (hc : c ≠ '\x60') :
    dropLit "\x60\x60\x60".data (c :: t) = none := by
  show (if '\x60' = c then dropLit ['\x60', '\x60'] t else none) = none
  rw [if_neg (fun h => hc h.symm)]

theorem takeWhile_append_stop {p : Char → Bool} {l : List Char} {c : Char}
    {t : List Char} (hall : ∀ x ∈ l, p x = true) (hc : p c = false) :
    (l ++ c :: t).takeWhile p = l ∧ (l ++ c :: t).dropWhile p = c :: t := by
  induction l with
  | nil => simp [List.takeWhile_cons, List.dropWhile_cons, hc]
  | cons d l' ih =>
    have hd : p d = true := hall d (List.mem_cons_self d l')
    obtain ⟨h1, h2⟩ := ih (fun x hx => hall x (List.mem_cons_of_mem d hx))
    constructor
    · rw [List.cons_append, List.takeWhile_cons, if_pos hd, h1]
    · rw [List.cons_append, List.dropWhile_cons, if_pos hd, h2]

theorem dropWhile_head_not {p : Char → Bool} {l : List Char} {c : Char}
    {t : List Char} (h : l.dropWhile p = c :: t) : p c = false := by
  induction l with
  | nil => simp at h
  | cons d l' ih =>
    rw [List.dropWhile_cons] at h
    by_cases hd : p d = true
    · rw [if_pos hd] at h; exact ih h
    · rw [if_neg hd] at h
      cases h
      exact Bool.eq_false_iff.mpr hd

theorem dropWhile_dropWhile (p : Char → Bool) (l : List Char) :
    (l.dropWhile p).dropWhile p = l.dropWhile p := by
  cases h : l.dropWhile p with
  | nil => rfl
  | cons c t => rw [List.dropWhile_cons, if_neg (by simp [dropWhile_head_not h])]

theorem nl_imp_sp {c : Char} (h : isNewlineChar c = true) : isJsSpace c = true := by
  unfold isNewlineChar at h
  unfold isJsSpace
  rcases Bool.or_eq_true_iff.mp h with h1 | h1 <;> simp [h1]

theorem dropWhile_sp_nl (l : List Char) :
    (l.dropWhile isNewlineChar).dropWhile isJsSpace = l.dropWhile isJsSpace := by
  induction l with
  | nil => rfl
  | cons c t ih =>
    by_cases hc : isNewlineChar c = true
    · rw [List.dropWhile_cons, if_pos hc, ih, List.dropWhile_cons,
        if_pos (nl_imp_sp hc)]
    · rw [List.dropWhile_cons, if_neg hc]

theorem jsTrim_dropWhile_sp (l : List Char) :
    jsTrim (l.dropWhile isJsSpace) = jsTrim l := by
  unfold jsTrim
  rw [dropWhile_dropWhile]

theorem jsTrim_dropWhile_nl (l : List Char) :
    jsTrim (l.dropWhile isNewlineChar) = jsTrim l := by
  unfold jsTrim
  rw [dropWhile_sp_nl]

theorem dropWhile_sp_ne_nil {l : List Char} (h : jsTrim l ≠ []) :
    l.dropWhile isJsSpace ≠ [] := by
  intro he
  apply h
  unfold jsTrim
  rw [he]
  rfl

theorem dropWhile_nl_ne_nil {l : List Char} (h : jsTrim l ≠ []) :
    l.dropWhile isNewlineChar ≠ [] := by
  intro he
  apply dropWhile_sp_ne_nil h
  rw [← dropWhile_sp_nl l, he]
  rfl

theorem takeWhile_append_of_dropWhile_ne {p : Char → Bool} {A : List Char}
    (B : List Char) (h : A.dropWhile p ≠ []) :
    (A ++ B).takeWhile p = A.takeWhile p := by
  rw [List.takeWhile_append, if_neg]
  intro hlen
  apply h
  have hsum := congrArg List.length
    (List.takeWhile_append_dropWhile p A)
  rw [List.length_append, hlen] at hsum
  exact List.length_eq_zero.mp (by omega)

theorem dropWhile_append_of_ne_nil {p : Char → Bool} {A : List Char}
    (B : List Char) (h : A.dropWhile p ≠ []) :
    (A ++ B).dropWhile p = A.dropWhile p ++ B := by
  rw [List.dropWhile_append, if_neg]
  simpa [List.isEmpty_iff] using h

/-- The `FILE:` marker cannot match across the boundary between a markerless
nonempty prefix and a suffix that starts with `F`. -/
theorem marker_prefix_append_false {p r : List Char} (hne : p ≠ [])
    (hp : containsSub "FILE:".data p = false)
    (hr0 : r.head? = some 'F') :
    "FILE:".data.isPrefixOf (p ++ r) = false := by
  cases hq : "FILE:".data.isPrefixOf (p ++ r) with
  | false => rfl
  | true =>
    exfalso
    have hpre : "FILE:".data <+: p ++ r := List.isPrefixOf_iff_prefix.mp hq
    by_cases h5 : 5 ≤ p.length
    · have htake : "FILE:".data = (p ++ r).take 5 :=
        List.prefix_iff_eq_take.mp hpre
      rw [List.take_append_of_le_length h5] at htake
      have hin : "FILE:".data <+: p :=
        htake ▸ List.take_prefix 5 p
      have : containsSub "FILE:".data p = true := by
        rw [containsSub_iff]
        exact ⟨0, List.isPrefixOf_iff_prefix.mpr (by simpa using hin)⟩
      rw [hp] at this
      exact Bool.false_ne_true this
    · have h1 : 1 ≤ p.length := List.length_pos.mpr hne
      have e1 : (p ++ r)[p.length]? = some 'F' := by
        rw [List.getElem?_append_right (le_refl p.length), Nat.sub_self,
          ← List.head?_eq_getElem?]
        exact hr0
      have e2 : "FILE:".data[p.length]? = some 'F' := by
        rw [← prefix_getElem? hpre (by simp; omega)]
        exact e1
      have hcases : p.length = 1 ∨ p.length = 2 ∨ p.length = 3 ∨
          p.length = 4 := by omega
      rcases hcases with h | h | h | h <;> rw [h] at e2 <;>
        exact absurd e2 (by decide)

/-- Scanning a markerless prose prefix followed by a matching suffix finds
exactly the suffix match (the leftmost-match rule). -/
theorem findFileMatch_append {p r : List Char}
    (hp : containsSub "FILE:".data p = false)
    (hr0 : r.head? = some 'F')
    {m : FileBlockMatch} (hm : matchFileAt r = some m) :
    findFileMatch (p ++ r) = some m := by
  induction p with
  | nil =>
    cases r with
    | nil => simp at hr0
    | cons c t =>
      show findFileMatch (c :: t) = some m
      simp only [findFileMatch]
      rw [hm]
  | cons c t ih =>
    obtain ⟨h0, ht⟩ := containsSub_cons_false hp
    rw [List.cons_append]
    simp only [findFileMatch]
    have hnone : matchFileAt (c :: (t ++ r)) = none := by
      cases hmm : matchFileAt (c :: (t ++ r)) with
      | none => rfl
      | some m' =>
        exfalso
        have hyes := matchFileAt_marker hmm
        have hno := marker_prefix_append_false
          (List.cons_ne_nil c t) hp hr0
        rw [List.cons_append] at hno
        rw [hno] at hyes
        exact Bool.false_ne_true hyes
    rw [hnone]
    exact ih ht

theorem dropLit_FILE (s : List Char) :
    dropLit "FILE:".data ('F' :: 'I' :: 'L' :: 'E' :: ':' :: s) = some s := rfl

/-- Matching the extraction regex at the start of a rendered well-formed
block: `\s*` eats the separating space plus the path's leading spaces, the
path capture takes the rest of the path line, the optional group captures
exactly the language tag, `[\n\r]+` eats the newline plus the body's leading
newlines, and the lazy body capture stops at the closing fence. -/
theorem matchFileAt_render {b : FileBlock} (hb : WellFormedBlock b)
    (rest : List Char) :
    matchFileAt (renderBlock b ++ rest) =
      some ⟨b.path.dropWhile isJsSpace, b.language,
        b.body.dropWhile isNewlineChar, rest⟩ := by
  obtain ⟨hpathNL, hpathTrim, hlang, hbodyTrim, hbodyTick⟩ := hb
  have hP : b.path.dropWhile isJsSpace ≠ [] := dropWhile_sp_ne_nil hpathTrim
  have hB : b.body.dropWhile isNewlineChar ≠ [] := dropWhile_nl_ne_nil hbodyTrim
  have hshape : renderBlock b ++ rest =
      'F' :: 'I' :: 'L' :: 'E' :: ':' ::
        (' ' :: (b.path ++ '\n' :: '\x60' :: '\x60' :: '\x60' ::
          (b.language.getD [] ++ '\n' ::
            (b.body ++ '\x60' :: '\x60' :: '\x60' :: rest)))) := by
    simp [renderBlock, List.append_assoc]
  rw [hshape]
  unfold matchFileAt
  rw [dropLit_FILE]
  apply starGreedy_first
  have hdw1 : (' ' :: (b.path ++ '\n' :: '\x60' :: '\x60' :: '\x60' ::
      (b.language.getD [] ++ '\n' ::
        (b.body ++ '\x60' :: '\x60' :: '\x60' :: rest)))).dropWhile isJsSpace =
      b.path.dropWhile isJsSpace ++ '\n' :: '\x60' :: '\x60' :: '\x60' ::
        (b.language.getD [] ++ '\n' ::
          (b.body ++ '\x60' :: '\x60' :: '\x60' :: rest)) := by
    rw [List.dropWhile_cons, if_pos (by decide),
      dropWhile_append_of_ne_nil _ hP]
  rw [hdw1]
  have hallP : ∀ x ∈ b.path.dropWhile isJsSpace, notNewlineChar x = true :=
    fun x hx => hpathNL x ((List.dropWhile_sublist isJsSpace).subset hx)
  have hstop1 : (b.path.dropWhile isJsSpace ++
        '\n' :: '\x60' :: '\x60' :: '\x60' ::
          (b.language.getD [] ++ '\n' ::
            (b.body ++ '\x60' :: '\x60' :: '\x60' :: rest))).takeWhile
          notNewlineChar = b.path.dropWhile isJsSpace ∧
      (b.path.dropWhile isJsSpace ++
        '\n' :: '\x60' :: '\x60' :: '\x60' ::
          (b.language.getD [] ++ '\n' ::
            (b.body ++ '\x60' :: '\x60' :: '\x60' :: rest))).dropWhile
          notNewlineChar = '\n' :: '\x60' :: '\x60' :: '\x60' ::
          (b.language.getD [] ++ '\n' ::
            (b.body ++ '\x60' :: '\x60' :: '\x60' :: rest)) :=
    takeWhile_append_stop hallP (by decide)
  apply plusGreedy_first
  · rw [hstop1.1]; exact hP
  rw [hstop1.1, hstop1.2]
  have htw2 : ('\n' :: '\x60' :: '\x60' :: '\x60' ::
      (b.language.getD [] ++ '\n' ::
        (b.body ++ '\x60' :: '\x60' :: '\x60' :: rest))).takeWhile
        isNewlineChar = ['\n'] := by
    rw [List.takeWhile_cons, if_pos (by decide),
      List.takeWhile_cons, if_neg (by decide)]
  have hdw2 : ('\n' :: '\x60' :: '\x60' :: '\x60' ::
      (b.language.getD [] ++ '\n' ::
        (b.body ++ '\x60' :: '\x60' :: '\x60' :: rest))).dropWhile
        isNewlineChar = '\x60' :: '\x60' :: '\x60' ::
      (b.language.getD [] ++ '\n' ::
        (b.body ++ '\x60' :: '\x60' :: '\x60' :: rest)) := by
    rw [List.dropWhile_cons, if_pos (by decide),
      List.dropWhile_cons, if_neg (by decide)]
  apply plusGreedy_first
  · rw [htw2]; exact List.cons_ne_nil _ _
  rw [hdw2]
  show optPlusGreedy isWordChar
      (b.language.getD [] ++ '\n' ::
        (b.body ++ '\x60' :: '\x60' :: '\x60' :: rest)) _ = _
  have htw3 : ('\n' :: (b.body ++ '\x60' :: '\x60' :: '\x60' ::
      rest)).takeWhile isNewlineChar =
      '\n' :: b.body.takeWhile isNewlineChar := by
    rw [List.takeWhile_cons, if_pos (by decide),
      takeWhile_append_of_dropWhile_ne _ hB]
  have hdw3 : ('\n' :: (b.body ++ '\x60' :: '\x60' :: '\x60' ::
      rest)).dropWhile isNewlineChar =
      b.body.dropWhile isNewlineChar ++ '\x60' :: '\x60' :: '\x60' :: rest := by
    rw [List.dropWhile_cons, if_pos (by decide),
      dropWhile_append_of_ne_nil _ hB]
  have hcle : (b.body.dropWhile isNewlineChar).length ≤
      (b.body.dropWhile isNewlineChar ++
        '\x60' :: '\x60' :: '\x60' :: rest).length := by
    rw [List.length_append]; omega
  have hfail : ∀ j, j < (b.body.dropWhile isNewlineChar).length →
      dropLit "\x60\x60\x60".data
        ((b.body.dropWhile isNewlineChar ++
          '\x60' :: '\x60' :: '\x60' :: rest).drop j) = none := by
    intro j hj
    rw [List.drop_append_eq_append_drop,
      Nat.sub_eq_zero_of_le (Nat.le_of_lt hj), List.drop_zero]
    have hne2 : (b.body.dropWhile isNewlineChar).drop j ≠ [] := by
      rw [Ne, List.drop_eq_nil_iff]; omega
    obtain ⟨c, t, hct⟩ := List.exists_cons_of_ne_nil hne2
    rw [hct, List.cons_append]
    refine dropLit_fence_cons ?_
    have hcmem : c ∈ b.body :=
      (List.dropWhile_sublist isNewlineChar).subset
        ((List.drop_sublist j _).subset (hct ▸ List.mem_cons_self c t))
    exact hbodyTick c hcmem
  have hrr : dropLit "\x60\x60\x60".data
      ((b.body.dropWhile isNewlineChar ++
        '\x60' :: '\x60' :: '\x60' :: rest).drop
          (b.body.dropWhile isNewlineChar).length) = some rest := by
    rw [List.drop_left]
    rfl
  have htake : (b.body.dropWhile isNewlineChar ++
      '\x60' :: '\x60' :: '\x60' :: rest).take
        (b.body.dropWhile isNewlineChar).length =
      b.body.dropWhile isNewlineChar := List.take_left _ _
  cases hL : b.language with
  | none =>
    apply optPlusGreedy_none_first
    · show (('\n' : Char) :: (b.body ++ '\x60' :: '\x60' :: '\x60' ::
        rest)).takeWhile isWordChar = []
      rw [List.takeWhile_cons, if_neg (by decide)]
    show plusGreedy isNewlineChar
        ('\n' :: (b.body ++ '\x60' :: '\x60' :: '\x60' :: rest)) _ = _
    apply plusGreedy_first
    · rw [htw3]; exact List.cons_ne_nil _ _
    rw [hdw3]
    have hlast : (fun (contentCap r : List Char) =>
        some (FileBlockMatch.mk (b.path.dropWhile isJsSpace) none
          contentCap r))
        ((b.body.dropWhile isNewlineChar ++
          '\x60' :: '\x60' :: '\x60' :: rest).take
            (b.body.dropWhile isNewlineChar).length) rest =
        some ⟨b.path.dropWhile isJsSpace, none,
          b.body.dropWhile isNewlineChar, rest⟩ := by
      rw [htake]
    exact lazyUpTo_first hcle hfail hrr hlast
  | some l =>
    rw [hL] at hlang
    have hl : l ≠ [] ∧ ∀ x ∈ l, isWordChar x = true := by
      simp only [langOk, Bool.and_eq_true, Bool.not_eq_true',
        List.isEmpty_eq_false, List.all_eq_true] at hlang
      exact ⟨hlang.1, fun x hx => hlang.2 x hx⟩
    have hstop4 : (l ++ '\n' ::
          (b.body ++ '\x60' :: '\x60' :: '\x60' :: rest)).takeWhile
          isWordChar = l ∧
        (l ++ '\n' ::
          (b.body ++ '\x60' :: '\x60' :: '\x60' :: rest)).dropWhile
          isWordChar = '\n' ::
          (b.body ++ '\x60' :: '\x60' :: '\x60' :: rest) :=
      takeWhile_append_stop hl.2 (by decide)
    simp only [Option.getD_some]
    apply optPlusGreedy_some_first
    · rw [hstop4.1]; exact hl.1
    rw [hstop4.1, hstop4.2]
    show plusGreedy isNewlineChar
        ('\n' :: (b.body ++ '\x60' :: '\x60' :: '\x60' :: rest)) _ = _
    apply plusGreedy_first
    · rw [htw3]; exact List.cons_ne_nil _ _
    rw [hdw3]
    have hlast : (fun (contentCap r : List Char) =>
        some (FileBlockMatch.mk (b.path.dropWhile isJsSpace) (some l)
          contentCap r))
        ((b.body.dropWhile isNewlineChar ++
          '\x60' :: '\x60' :: '\x60' :: rest).take
            (b.body.dropWhile isNewlineChar).length) rest =
        some ⟨b.path.dropWhile isJsSpace, some l,
          b.body.dropWhile isNewlineChar, rest⟩ := by
      rw [htake]
    exact lazyUpTo_first hcle hfail hrr hlast

/-- A rendered block starts with `F`. -/
theorem renderBlock_head (b : FileBlock) (s : List Char) :
    (renderBlock b ++ s).head? = some 'F' := rfl

/-- C1 (amended): `parseResponse` extracts exactly the well-formed blocks of
a completion. For every completion that interleaves markerless prose with
`FILE:`-headed fenced blocks whose paths are nonblank and newline-free,
whose language tags (when present) are nonempty `\w+` words and whose
bodies are nonblank and backtick-free, the extraction loop returns one
record per block, in order, with the trimmed path, the trimmed body, and
the lower-cased language tag — defaulting to `text`, not to the file
extension, when the tag is absent. -/
theorem claim1_extraction_amended
    (blocks : List (List Char × FileBlock)) (final : List Char) :
    WellFormedCompletion blocks final →
    extractFilesList (renderCompletion blocks final) =
      blocks.map (fun pb => expectedRecord pb.2) := by
  induction blocks with
  | nil =>
    intro h
    exact extractFilesList_eq_nil_of_no_marker h.2
  | cons pb rest ih =>
    intro h
    obtain ⟨hall, hfinal⟩ := h
    obtain ⟨prose, b⟩ := pb
    obtain ⟨hwf, hprose⟩ := hall (prose, b) (List.mem_cons_self _ _)
    have hmatch := matchFileAt_render hwf (renderCompletion rest final)
    have hfind := findFileMatch_append hprose
      (renderBlock_head b (renderCompletion rest final)) hmatch
    show extractFilesList
        (prose ++ (renderBlock b ++ renderCompletion rest final)) = _
    rw [extractFilesList_eq, hfind]
    show recordOfMatch ⟨b.path.dropWhile isJsSpace, b.language,
        b.body.dropWhile isNewlineChar, renderCompletion rest final⟩ ::
        extractFilesList (renderCompletion rest final) = _
    rw [List.map_cons]
    congr 1
    · simp [recordOfMatch, expectedRecord, jsTrim_dropWhile_sp,
        jsTrim_dropWhile_nl]
    · exact ih ⟨fun q hq => hall q (List.mem_cons_of_mem _ hq), hfinal⟩

/-- A concrete completion with two blocks: one with a language tag, one
without one and with extra whitespace around path and body. -/
def c1Blocks : List (List Char × FileBlock) :=
  [("Sure! Here are the files.\n".data,
    ⟨"index.html".data, some "HTML".data, "<p>hi</p>\n".data⟩),
   ("and the styles\n".data,
    ⟨" style.css ".data, none, "\nbody\n".data⟩)]

/-- Witness for C1 (amended): on a concrete two-block completion the
hypotheses hold and the extraction returns the two expected records, with
the tagless block getting language `text`. -/
theorem claim1_extraction_amended_witness :
    WellFormedCompletion c1Blocks "Done.".data ∧
    extractFilesList (renderCompletion c1Blocks "Done.".data) =
      [⟨"index.html".data, "<p>hi</p>".data, "html".data⟩,
       ⟨"style.css".data, "body".data, "text".data⟩] := by
  refine ⟨by decide, ?_⟩
  rw [claim1_extraction_amended c1Blocks "Done.".data (by decide)]
  decide
